import Mathlib

/-!
Verification of the NativeScript Tailwind CSS transformer
(src/css-transformer.js) against its specification.

The transformer is embedded shallowly: every function of the source file is
translated to a computable Lean definition over `String` / `List Char`.
JS strings are lists of characters; the regular expressions of the source
are hand-compiled to equivalent character scanners (each one is documented
at its definition).  JS numbers that arise here (the rem/em conversion and
the animation duration) are decimal literals scaled by powers of ten, and
are modelled as exact decimals (mantissa, scale); for the numeral sizes the
upstream generator emits this coincides with JS double arithmetic and
number-to-string conversion.  The external animation-shorthand parser is a
collaborator from another package and is modelled as an explicit argument.
-/

set_option maxRecDepth 20000
set_option linter.unusedVariables false

namespace NSCss

/-- Whitespace characters, modelling the regular-expression class used by the
source for trimming and scanning (ASCII subset; the transformer input is
ASCII CSS text produced by the utility-class generator). -/
def isWSChar (c : Char) : Bool :=
  c = ' ' || c = '\t' || c = '\n' || c = '\r' || c = '\x0b' || c = '\x0c'

/-- ASCII digit. -/
def isDigitChar (c : Char) : Bool := '0' ≤ c && c ≤ '9'

/-- Characters that can occur in the numeric capture of the rem/em pattern:
digits and the decimal dot. -/
def isNumChar (c : Char) : Bool := isDigitChar c || c = '.'

/-- Word characters, for the at-rule name pattern of the source parser. -/
def isWordChar (c : Char) : Bool :=
  ('a' ≤ c && c ≤ 'z') || ('A' ≤ c && c ≤ 'Z') || isDigitChar c || c = '_'

/-- Boolean list-prefix test. -/
def isPrefixL : List Char → List Char → Bool
  | [], _ => true
  | _ :: _, [] => false
  | p :: ps, c :: cs => p = c && isPrefixL ps cs

/-- Substring test, modelling the JS String.prototype.includes method. -/
def containsSubL (pat : List Char) : List Char → Bool
  | [] => isPrefixL pat []
  | c :: cs => isPrefixL pat (c :: cs) || containsSubL pat cs

/-- Scanner for global, non-overlapping, left-to-right literal
replacement.  The first argument counts characters of a previous match
still to be skipped; at skip zero, a match emits the replacement and skips
the rest of the matched text (the replacement is not rescanned), otherwise
one character is copied.  The skip counter keeps the recursion structural
on the scanned list. -/
def replaceGo (pat rep : List Char) : Nat → List Char → List Char
  | _, [] => []
  | skip + 1, _ :: cs => replaceGo pat rep skip cs
  | 0, c :: cs =>
    if isPrefixL pat (c :: cs) then rep ++ replaceGo pat rep (pat.length - 1) cs
    else c :: replaceGo pat rep 0 cs

/-- Global, non-overlapping, left-to-right literal replacement, modelling a
JS String.prototype.replace call with a global regex whose pattern is a
literal string. -/
def replaceAllL (pat rep cs : List Char) : List Char :=
  match pat with
  | [] => cs
  | _ :: _ => replaceGo pat rep 0 cs

/-- Trim whitespace from both ends, modelling JS String.prototype.trim. -/
def trimL (cs : List Char) : List Char :=
  ((cs.dropWhile isWSChar).reverse.dropWhile isWSChar).reverse

def trimS (s : String) : String := ⟨trimL s.data⟩

/-- Split a character list on a separator character, modelling the JS
String.prototype.split method with a one-character separator. -/
def splitChar (sep : Char) : List Char → List (List Char)
  | [] => [[]]
  | c :: cs =>
    match splitChar sep cs with
    | [] => [[]]
    | h :: t => if c = sep then [] :: h :: t else (c :: h) :: t

/-- Join with a separator, modelling the JS Array.prototype.join method. -/
def joinSep (sep : String) : List String → String
  | [] => ""
  | [x] => x
  | x :: y :: xs => x ++ sep ++ joinSep sep (y :: xs)

def containsSubS (s pat : String) : Bool := containsSubL pat.data s.data

def replaceAllS (s pat rep : String) : String := ⟨replaceAllL pat.data rep.data s.data⟩

def startsWithS (pre s : String) : Bool := isPrefixL pre.data s.data

def endsWithS (suf s : String) : Bool := isPrefixL suf.data.reverse s.data.reverse

/-- Mantissa of a decimal numeral (digits with the dot ignored). -/
def parseDecMant (cs : List Char) : Nat :=
  (cs.filter isDigitChar).foldl (fun a c => a * 10 + (c.toNat - 48)) 0

/-- Number of digits after the dot of a decimal numeral. -/
def parseDecScale (cs : List Char) : Nat :=
  ((cs.dropWhile (fun c => c ≠ '.')).drop 1).length

/-- Valid captures of the numeric group of the source pattern
(digits, an optional single dot, ending in a digit, nonempty). -/
def validNumRun (cs : List Char) : Bool :=
  !cs.isEmpty && cs.all isNumChar && (cs.filter (fun c => c = '.')).length ≤ 1 &&
    isDigitChar (cs.getLastD '.')

/-- Integer division with round half to even, the rounding of IEEE 754
binary arithmetic. -/
def rheDiv (N D : Nat) : Nat :=
  let q := N / D
  let r := N % D
  if 2 * r < D then q
  else if D < 2 * r then q + 1
  else if q % 2 = 0 then q else q + 1

/-- Bit length of a natural number, with a structural fuel argument (the
number itself is always enough fuel). -/
def bitLenGo : Nat → Nat → Nat
  | 0, _ => 0
  | fuel + 1, n => if n ≤ 1 then n else bitLenGo fuel (n / 2) + 1

def bitLen (n : Nat) : Nat := bitLenGo n n

/-- den * 2 ^ e ≤ num with a signed exponent. -/
def le2pow (den : Nat) (e : Int) (num : Nat) : Bool :=
  den * 2 ^ e.toNat ≤ num * 2 ^ (-e).toNat

/-- Greatest e with 2 ^ e ≤ num / den (num, den positive): the binary
exponent of the ratio.  The bit lengths pin it to within one. -/
def findExp (num den : Nat) : Int :=
  let e0 : Int := (bitLen num : Int) - (bitLen den : Int)
  if le2pow den e0 num then e0 else e0 - 1

/-- IEEE 754 binary64 values as scanned values of this transformer occur:
zero, a finite positive value sig * 2 ^ exp, or infinity (overflow of
parseFloat on enormous numerals).  NaN cannot arise here.  Signs are
carried separately at the printing sites. -/
inductive Dbl where
  | zero
  | finite (sig : Nat) (exp : Int)
  | inf
deriving DecidableEq

/-- Round half even of num * 2 ^ t / den with a signed shift. -/
def ratScaled (num den : Nat) (t : Int) : Nat :=
  rheDiv (num * 2 ^ t.toNat) (den * 2 ^ (-t).toNat)

/-- Round the positive rational num / den to the nearest binary64 value
(ties to even), with gradual underflow to subnormals and overflow to
infinity.  Canonical form: a normal value has 2 ^ 52 ≤ sig < 2 ^ 53, a
subnormal has exp = -1074. -/
def roundRatD (num den : Nat) : Dbl :=
  if num = 0 then .zero
  else
    let e : Int := findExp num den
    if 1024 ≤ e then .inf
    else if -1022 ≤ e then
      let s := ratScaled num den (52 - e)
      if s = 2 ^ 53 then
        (if e = 1023 then .inf else .finite (2 ^ 52) (e + 1 - 52))
      else .finite s (e - 52)
    else
      let s := ratScaled num den 1074
      if s = 0 then .zero else .finite s (-1074)

/-- Restore the canonical form after an exact exponent shift (shift the
significand up while it is subnormal-small and the exponent is above the
subnormal floor). -/
def normGo : Nat → Nat → Int → Dbl
  | 0, s, e => .finite s e
  | f + 1, s, e =>
    if s < 2 ^ 52 ∧ -1074 < e then normGo f (2 * s) (e - 1) else .finite s e

/-- Multiplication by 16 is an exact exponent shift in binary64, up to
overflow. -/
def dblMul16 : Dbl → Dbl
  | .zero => .zero
  | .inf => .inf
  | .finite s e =>
    if (971 : Int) < e + 4 ∧ 2 ^ 52 ≤ s then .inf else normGo 53 s (e + 4)

/-- Binary64 division by 1000 (exact rational quotient rounded to nearest
even, as IEEE division prescribes). -/
def divBy1000 : Dbl → Dbl
  | .zero => .zero
  | .inf => .inf
  | .finite s e => roundRatD (s * 2 ^ e.toNat) (1000 * 2 ^ (-e).toNat)

/-- Number.isInteger on the binary64 model. -/
def dblIsInt : Dbl → Bool
  | .zero => true
  | .inf => false
  | .finite s e => 0 ≤ e || s % 2 ^ (-e).toNat == 0

/-- 10 ^ j ≤ s * 2 ^ e with signed exponents. -/
def pow10Le (j : Int) (s : Nat) (e : Int) : Bool :=
  10 ^ j.toNat * 2 ^ (-e).toNat ≤ s * 10 ^ (-j).toNat * 2 ^ e.toNat

/-- Binary search for the greatest j with 10 ^ j ≤ s * 2 ^ e, maintaining
pow10Le lo and not pow10Le hi. -/
def findDecExpGo (s : Nat) (e : Int) : Nat → Int → Int → Int
  | 0, lo, _ => lo
  | f + 1, lo, hi =>
    if hi - lo ≤ 1 then lo
    else
      let mid := (lo + hi) / 2
      if pow10Le mid s e then findDecExpGo s e f mid hi else findDecExpGo s e f lo mid

/-- Greatest j with 10 ^ j ≤ s * 2 ^ e; all finite positive binary64
values lie between 10 ^ -1080 and 10 ^ 1080. -/
def findDecExp (s : Nat) (e : Int) : Int := findDecExpGo s e 16 (-1080) 1080

/-- Nearest integer (ties even) to s * 2 ^ e * 10 ^ (k - n): the candidate
k-digit significand for printing. -/
def candAt (s : Nat) (e : Int) (n : Int) (k : Nat) : Nat :=
  let t : Int := (k : Int) - n
  rheDiv (s * 2 ^ e.toNat * 10 ^ t.toNat) (2 ^ (-e).toNat * 10 ^ (-t).toNat)

/-- The binary64 value of the decimal c * 10 ^ j. -/
def mkDblE10 (c : Nat) (j : Int) : Dbl :=
  roundRatD (c * 10 ^ j.toNat) (10 ^ (-j).toNat)

/-- Accept the candidate digits c at width k and decimal exponent n when
the decimal c * 10 ^ (n - k) reads back as exactly the value s * 2 ^ e;
a carry to 10 ^ k renormalises to one digit more of exponent. -/
def tryCand (s : Nat) (e : Int) (n : Int) (k : Nat) (c : Nat) : Option (Nat × Int) :=
  if c = 10 ^ k then
    if mkDblE10 (10 ^ (k - 1)) (n + 1 - k) = Dbl.finite s e then some (10 ^ (k - 1), n + 1)
    else none
  else if 10 ^ (k - 1) ≤ c ∧ mkDblE10 c (n - k) = Dbl.finite s e then some (c, n)
  else none

/-- Shortest-round-trip digit search of ECMAScript number printing: try
digit counts k = 1, 2, ... and at each width the nearest decimal and its
two neighbours (the only decimals of that width that can read back as the
value), taking the first that does.  Seventeen digits always suffice for
binary64. -/
def shortestGo (s : Nat) (e : Int) (n : Int) : Nat → Nat → Nat × Int
  | 0, _ => (candAt s e n 17, n)
  | f + 1, k =>
    let c := candAt s e n k
    match tryCand s e n k c with
    | some r => r
    | none =>
      match tryCand s e n k (c + 1) with
      | some r => r
      | none =>
        match (if 1 ≤ c then tryCand s e n k (c - 1) else none) with
        | some r => r
        | none => shortestGo s e n f (k + 1)

def shortestRep (s : Nat) (e : Int) : Nat × Int :=
  shortestGo s e (findDecExp s e + 1) 17 1

/-- Drop trailing zero digits (the stored decimal exponent is independent
of the digit count, so the value is unchanged). -/
def strip10 : Nat → Nat → Nat
  | 0, c => c
  | f + 1, c => if c % 10 = 0 ∧ c ≠ 0 then strip10 f (c / 10) else c

/-- Lay out digits c and decimal exponent n as ECMAScript ToString on a
Number does: plain digits with padding zeros up to 10 ^ 21, a fixed point
down to 10 ^ -6, exponential with an explicit plus sign outside that
range. -/
def fmtDigits (c : Nat) (n : Int) : String :=
  let D := Nat.repr c
  let k : Int := (D.data.length : Int)
  if 1 ≤ n ∧ n ≤ 21 then
    if k ≤ n then D ++ ⟨List.replicate (n - k).toNat '0'⟩
    else ⟨D.data.take n.toNat⟩ ++ "." ++ ⟨D.data.drop n.toNat⟩
  else if -5 ≤ n ∧ n ≤ 0 then
    "0." ++ ⟨List.replicate (-n).toNat '0'⟩ ++ D
  else
    let ex := n - 1
    let exs := if 0 ≤ ex then "+" ++ Nat.repr ex.toNat else "-" ++ Nat.repr (-ex).toNat
    if k = 1 then D ++ "e" ++ exs
    else ⟨D.data.take 1⟩ ++ "." ++ ⟨D.data.drop 1⟩ ++ "e" ++ exs

/-- String() on a nonnegative binary64 value, ECMAScript 6.1.6.1.20. -/
def jsDblStr : Dbl → String
  | .zero => "0"
  | .inf => "Infinity"
  | .finite s e =>
    let p := shortestRep s e
    fmtDigits (strip10 20 p.1) p.2

/-- String() on the number the external parser delivered as the exact
decimal m / 10 ^ k (the sign is printed unless the magnitude underflowed
to zero, as JS prints -0 as 0). -/
def jsNumStr (m : Int) (k : Nat) : String :=
  let d := roundRatD m.natAbs (10 ^ k)
  if m < 0 ∧ d ≠ Dbl.zero then "-" ++ jsDblStr d else jsDblStr d

/-- String() of the duration quotient duration / 1000, both binary64
operations. -/
def jsDivStr1000 (m : Int) (k : Nat) : String :=
  let d := divBy1000 (roundRatD m.natAbs (10 ^ k))
  if m < 0 ∧ d ≠ Dbl.zero then "-" ++ jsDblStr d else jsDblStr d

/-- Replacement text for one rem/em match: String(parseFloat(num) * 16).
parseFloat rounds the decimal numeral to the nearest binary64 value, the
multiplication by 16 is an exact binary exponent shift, and String prints
the shortest decimal that reads back as the same value, switching to
exponential notation below 10 ^ -6 and at 10 ^ 21. -/
def fmt16 (run : List Char) : String :=
  jsDblStr (dblMul16 (roundRatD (parseDecMant run) (10 ^ parseDecScale run)))

def remPat : List Char := ['r', 'e', 'm']

def emPat : List Char := ['e', 'm']

/-- One attempt of the source regex remRE at the head of the input.  The
pattern is digits-with-optional-dot, then optional whitespace, then an
optional letter r, then the literal em.  Backtracking makes this equivalent
to: the maximal digit-and-dot run must itself be a valid numeral (nothing
after a failed run can be consumed by the whitespace-and-em tail), followed
after a maximal whitespace run by the literal rem or em.  Returns the
captured numeral and the remainder after the match. -/
def remMatchAt (cs : List Char) : Option (List Char × List Char) :=
  if validNumRun (cs.takeWhile isNumChar) then
    if isPrefixL remPat ((cs.dropWhile isNumChar).dropWhile isWSChar) then
      some (cs.takeWhile isNumChar, ((cs.dropWhile isNumChar).dropWhile isWSChar).drop 3)
    else if isPrefixL emPat ((cs.dropWhile isNumChar).dropWhile isWSChar) then
      some (cs.takeWhile isNumChar, ((cs.dropWhile isNumChar).dropWhile isWSChar).drop 2)
    else none
  else none

/-- The global replacement loop of the source regex remRE: scan left to
right; at a match emit the converted number and resume after the matched
text (the emitted replacement is not rescanned); otherwise copy one
character.  The skip counter carries the remaining length of a matched
region, keeping the recursion structural (the remainder returned by
remMatchAt is always a suffix of the input, proved below). -/
def remGo : Nat → List Char → List Char
  | _, [] => []
  | skip + 1, _ :: cs => remGo skip cs
  | 0, c :: cs =>
    match remMatchAt (c :: cs) with
    | some (run, rest) => (fmt16 run).data ++ remGo (cs.length - rest.length) cs
    | none => c :: remGo 0 cs

def remReplace (cs : List Char) : List Char := remGo 0 cs

/-- Transform a CSS value: convert each em/rem occurrence to device pixels
(16 per unit), translated from transformValue.  The debug flag of the
source only emits a console log per conversion and never affects the
returned value, so it is omitted from the model. -/
def transformValue (value : String) : String :=
  if value = "" then value
  else if containsSubS value "rem" || containsSubS value "em" then ⟨remReplace value.data⟩
  else value

/-- A support-table entry: either every value is accepted, or only the
enumerated literal values (the source stores true or an array). -/
inductive SupportRule where
  | always : SupportRule
  | oneOf : List String → SupportRule
deriving DecidableEq

/-- The supported-properties table of the source, entry for entry
(split into four quarters only to keep elaboration fast; the
concatenation below preserves the source order). -/
def supportedTbl1 : List (String × SupportRule) := [
  ("align-content", .always),
  ("align-items", .always),
  ("align-self", .always),
  ("android-selected-tab-highlight-color", .always),
  ("android-elevation", .always),
  ("android-dynamic-elevation-offset", .always),
  ("animation", .always),
  ("animation-delay", .always),
  ("animation-direction", .always),
  ("animation-duration", .always),
  ("animation-fill-mode", .always),
  ("animation-iteration-count", .always),
  ("animation-name", .always),
  ("animation-timing-function", .always),
  ("background", .always),
  ("background-color", .always),
  ("background-image", .always),
  ("background-position", .always),
  ("background-repeat", .oneOf ["repeat", "repeat-x", "repeat-y", "no-repeat"]),
  ("background-size", .always),
  ("border-bottom-color", .always),
  ("border-bottom-left-radius", .always),
  ("border-bottom-right-radius", .always),
  ("border-bottom-width", .always),
  ("border-color", .always)]

def supportedTbl2 : List (String × SupportRule) := [
  ("border-left-color", .always),
  ("border-left-width", .always),
  ("border-radius", .always),
  ("border-right-color", .always),
  ("border-right-width", .always),
  ("border-top-color", .always),
  ("border-top-left-radius", .always),
  ("border-top-right-radius", .always),
  ("border-top-width", .always),
  ("border-width", .always),
  ("box-shadow", .always),
  ("clip-path", .always),
  ("color", .always),
  ("flex", .always),
  ("flex-grow", .always),
  ("flex-direction", .always),
  ("flex-shrink", .always),
  ("flex-wrap", .always),
  ("font", .always),
  ("font-family", .always),
  ("font-size", .always),
  ("font-style", .oneOf ["italic", "normal"]),
  ("font-weight", .always),
  ("font-variation-settings", .always),
  ("height", .always)]

def supportedTbl3 : List (String × SupportRule) := [
  ("highlight-color", .always),
  ("horizontal-align", .oneOf ["left", "center", "right", "stretch"]),
  ("justify-content", .always),
  ("justify-items", .always),
  ("justify-self", .always),
  ("letter-spacing", .always),
  ("line-height", .always),
  ("margin", .always),
  ("margin-bottom", .always),
  ("margin-left", .always),
  ("margin-right", .always),
  ("margin-top", .always),
  ("margin-block", .always),
  ("margin-block-start", .always),
  ("margin-block-end", .always),
  ("margin-inline", .always),
  ("margin-inline-start", .always),
  ("margin-inline-end", .always),
  ("min-height", .always),
  ("min-width", .always),
  ("max-height", .always),
  ("max-width", .always),
  ("off-background-color", .always),
  ("opacity", .always),
  ("order", .always)]

def supportedTbl4 : List (String × SupportRule) := [
  ("padding", .always),
  ("padding-block", .always),
  ("padding-bottom", .always),
  ("padding-inline", .always),
  ("padding-left", .always),
  ("padding-right", .always),
  ("padding-top", .always),
  ("place-content", .always),
  ("placeholder-color", .always),
  ("place-items", .always),
  ("place-self", .always),
  ("selected-tab-text-color", .always),
  ("tab-background-color", .always),
  ("tab-text-color", .always),
  ("tab-text-font-size", .always),
  ("text-transform", .oneOf ["none", "capitalize", "uppercase", "lowercase"]),
  ("text-align", .oneOf ["left", "center", "right"]),
  ("text-decoration", .oneOf ["none", "line-through", "underline"]),
  ("text-shadow", .always),
  ("transform", .always),
  ("rotate", .always),
  ("vertical-align", .oneOf ["top", "center", "bottom", "stretch"]),
  ("visibility", .oneOf ["visible", "collapse"]),
  ("width", .always),
  ("z-index", .always)]

def supportedProperties : List (String × SupportRule) :=
  supportedTbl1 ++ supportedTbl2 ++ supportedTbl3 ++ supportedTbl4

/-- The property names the object literal inherits from Object.prototype.
Property access on supportedProperties finds these on the prototype chain;
every one of them is a function (or, for the proto accessor, the prototype
object itself), so the value is truthy and is not an array, which
isSupportedProperty treats exactly like an across-the-board true entry. -/
def protoKeys : List String :=
  ["constructor", "__defineGetter__", "__defineSetter__", "hasOwnProperty",
   "__lookupGetter__", "__lookupSetter__", "isPrototypeOf", "propertyIsEnumerable",
   "toString", "valueOf", "__proto__", "toLocaleString"]

/-- Property access on the object literal: an own entry of the written
table first, else the inherited Object.prototype members (truthy
non-array values, so equivalent to an always entry), else undefined. -/
def lookupProp (prop : String) : Option SupportRule :=
  match supportedProperties.find? (fun e => e.1 == prop) with
  | some e => some e.2
  | none => if protoKeys.contains prop then some SupportRule.always else none

def unsupportedPseudoSelectors : List String := [":focus-within", ":hover"]

def unsupportedValues : List String := ["max-content", "min-content", "vh", "vw"]

/-- Declared in the source but never consulted there (the entry point
hard-codes its at-rule policy); kept for completeness. -/
def unsupportedAtRules : List String := ["@media", "@supports", "@property", "@keyframes"]

/-- Check whether a CSS property (with an optional value) is supported,
translated from isSupportedProperty. -/
def isSupportedProperty (prop val : String) : Bool :=
  match lookupProp prop with
  | none => false
  | some rules =>
    if val ≠ "" then
      if unsupportedValues.any (fun unit => endsWithS unit val) then false
      else
        match rules with
        | .oneOf vals => vals.contains val
        | .always => true
    else true

/-- Check whether a selector is supported, translated from
isSupportedSelector. -/
def isSupportedSelector (selector : String) : Bool :=
  !(unsupportedPseudoSelectors.any (fun pseudo => containsSubS selector pseudo))

def isLowerAZ (c : Char) : Bool := 'a' ≤ c && c ≤ 'z'

def isUpperAZ (c : Char) : Bool := 'A' ≤ c && c ≤ 'Z'

/-- Insert a hyphen between each lowercase letter and a following uppercase
letter.  This pairwise scan is equivalent to the non-overlapping global
regex replacement of the source: a match consumes both letters, and no new
match can start at the consumed uppercase letter. -/
def kebabGo : List Char → List Char
  | [] => []
  | [c] => [c]
  | a :: b :: cs =>
    if isLowerAZ a && isUpperAZ b then a :: '-' :: kebabGo (b :: cs)
    else a :: kebabGo (b :: cs)

/-- Convert camelCase to kebab-case, translated from camelToKebab. -/
def camelToKebab (input : String) : String := ⟨(kebabGo input.data).map Char.toLower⟩

/-- Values of the structured mapping returned by the external
animation-shorthand parser: a string, a number (exact-decimal model:
mantissa and scale), or a composite sub-structure (whose shape only the
external serializer interprets). -/
inductive JSVal where
  | jstr : String → JSVal
  | jnum : Int → Nat → JSVal
  | jobj : List (String × String) → JSVal
deriving DecidableEq

def lookupAssoc (k : String) : List (String × JSVal) → Option JSVal
  | [] => none
  | e :: t => if e.1 = k then some e.2 else lookupAssoc k t

/-- Field update preserving entry order, modelling assignment to an
existing JS object property. -/
def updateAssoc (k : String) (v : JSVal) : List (String × JSVal) → List (String × JSVal)
  | [] => []
  | e :: t => if e.1 = k then (e.1, v) :: t else e :: updateAssoc k v t

/-- First space-separated token, modelling split on a space then taking
element zero. -/
def headToken (s : String) : String := ⟨s.data.takeWhile (fun c => c ≠ ' ')⟩

/-- Template-literal stringification of a field value (numbers print as
String() on the binary64 value). -/
def jsValFmt : JSVal → String
  | .jstr s => s
  | .jnum m k => jsNumStr m k
  | .jobj _ => "[object Object]"

/-- Modelled from the spec: the external animation-shorthand collaborator
(the parse and serialize pair from the parse-animation-shorthand package)
is not code of this repository.  The parse result is therefore passed in
explicitly as an Except value (error = the exception the source catches),
and the serializer as a function argument.  The post-processing is
translated from expandAnimation: a truthy (nonzero binary64) integer
duration in milliseconds is rewritten to the seconds text
String(duration / 1000) with unit suffix s; composite values are
re-serialized and cut at the first space; fields equal to the string unset
are omitted; the rest are emitted as animation-(kebab-name): value joined
by semicolon-newline. -/
def animStage2 (serialize : String → JSVal → String) (e : String × JSVal) :
    String × JSVal :=
  match e.2 with
  | .jobj o => (e.1, JSVal.jstr (headToken (serialize e.1 (.jobj o))))
  | v => (e.1, v)

def expandAnimation (serialize : String → JSVal → String) (value : String)
    (parsed : Except Unit (List (String × JSVal))) : String :=
  match parsed with
  | .error _ => "animation: " ++ value
  | .ok styles0 =>
    let styles1 :=
      match lookupAssoc "duration" styles0 with
      | some (.jnum m k) =>
        if roundRatD m.natAbs (10 ^ k) ≠ Dbl.zero ∧
            dblIsInt (roundRatD m.natAbs (10 ^ k)) = true then
          updateAssoc "duration" (.jstr (jsDivStr1000 m k ++ "s")) styles0
        else styles0
      | _ => styles0
    let styles2 := styles1.map (animStage2 serialize)
    let kept := styles2.filter (fun e => e.2 != JSVal.jstr "unset")
    joinSep ";\n  " (kept.map (fun e => "animation-" ++ camelToKebab e.1 ++ ": " ++ jsValFmt e.2))

/-- The per-entry effect of the two rewrite stages of expandAnimation (the
duration-to-seconds rewrite and the composite re-serialization), for
stating the expansion entry by entry. -/
def animResolve (serialize : String → JSVal → String) (e : String × JSVal) : JSVal :=
  match e.2 with
  | .jnum m k =>
    if e.1 = "duration" ∧ roundRatD m.natAbs (10 ^ k) ≠ Dbl.zero ∧
        dblIsInt (roundRatD m.natAbs (10 ^ k)) = true
    then .jstr (jsDivStr1000 m k ++ "s") else .jnum m k
  | .jobj o => .jstr (headToken (serialize e.1 (.jobj o)))
  | v => v

/-- Like animResolve but without the duration rewrite: the per-entry
effect of the re-serialization stage alone. -/
def animResolveND (serialize : String → JSVal → String) (e : String × JSVal) : JSVal :=
  match e.2 with
  | .jobj o => .jstr (headToken (serialize e.1 (.jobj o)))
  | v => v

/-- The output fragment one parsed sub-property contributes to the
expansion: nothing when it resolves to unset, its kebab-cased longhand
line otherwise. -/
def animEmit (serialize : String → JSVal → String) (e : String × JSVal) : Option String :=
  if animResolve serialize e = .jstr "unset" then none
  else some ("animation-" ++ camelToKebab e.1 ++ ": " ++ jsValFmt (animResolve serialize e))

/-- animEmit without the duration rewrite. -/
def animEmitND (serialize : String → JSVal → String) (e : String × JSVal) : Option String :=
  if animResolveND serialize e = .jstr "unset" then none
  else some ("animation-" ++ camelToKebab e.1 ++ ": " ++ jsValFmt (animResolveND serialize e))

def twSkipVars : List String :=
  ["tw-ring", "tw-shadow", "tw-ordinal", "tw-slashed-zero", "tw-numeric"]

/-- The four strings the divide-and-space-reverse regex of the source can
match (its only regex operator is the two-way alternation, twice). -/
def twReversePatterns : List String :=
  ["--tw-divide-x-reverse", "--tw-divide-y-reverse",
   "--tw-space-x-reverse", "--tw-space-y-reverse"]

/-- Transform a single CSS declaration, translated from
transformDeclaration.  Returns none for a dropped declaration; the marker
property name signals an expanded animation shorthand, as in the source. -/
def transformDeclaration (animParse : String → Except Unit (List (String × JSVal)))
    (serialize : String → JSVal → String) (prop value : String) : Option (String × String) :=
  if twSkipVars.any (fun varName => startsWithS ("--" ++ varName) prop) then none
  else if twReversePatterns.any (fun pat => containsSubS prop pat) then none
  else if containsSubS value "color-mix" then none
  else if containsSubS value "currentColor" then none
  else if prop = "visibility" ∧ value = "hidden" then some (prop, "collapse")
  else if prop = "vertical-align" ∧ value = "middle" then some (prop, "center")
  else if prop = "animation" then
    some ("__expanded__", expandAnimation serialize value (animParse value))
  else if !startsWithS "--" prop && !isSupportedProperty prop (transformValue value) then none
  else some (prop, transformValue value)

def rootClasses : String := ".ns-root, .ns-modal"

def wherePat : List Char := [':', 'w', 'h', 'e', 'r', 'e', '(']

/-- Global replacement of the where-pseudo pattern (colon, where, an open
parenthesis, one or more non-parenthesis characters, a close parenthesis)
by its captured inner text.  At each position the greedy nonempty capture
runs to the first close parenthesis; on failure the scan advances one
character, as the regex engine does.  The skip counter carries the
remaining length of a matched region, keeping the recursion structural. -/
def whereGo : Nat → List Char → List Char
  | _, [] => []
  | skip + 1, _ :: cs => whereGo skip cs
  | 0, c :: cs =>
    if isPrefixL wherePat (c :: cs) then
      if !((cs.drop 6).takeWhile (fun x => x ≠ ')')).isEmpty &&
         !((cs.drop 6).dropWhile (fun x => x ≠ ')')).isEmpty then
        ((cs.drop 6).takeWhile (fun x => x ≠ ')')) ++
          whereGo (cs.length - (((cs.drop 6).dropWhile (fun x => x ≠ ')')).tail).length) cs
      else c :: whereGo 0 cs
    else c :: whereGo 0 cs

def whereReplaceL (cs : List Char) : List Char := whereGo 0 cs

/-- Transform a CSS selector, translated from transformSelector: the
root-and-host rewrite, the where-unwrapping, the two divide-and-space
sibling rewrites, the placeholder strip, then trim. -/
def transformSelector (selector : String) : String :=
  trimS
    (let s2 := replaceAllS (replaceAllS selector ":root" rootClasses) ":host" rootClasses
     let s5 := replaceAllS
       (replaceAllS (⟨whereReplaceL s2.data⟩ : String) ":not(:last-child)" "* + *")
       ":not([hidden]) ~ :not([hidden])" "* + *"
     if containsSubS s5 "::placeholder" then replaceAllS s5 "::placeholder" "" else s5)

/-- Top-level style-sheet nodes produced by the parser: a rule (selector
and raw body) or an at-rule (name, params and an optional raw block
body). -/
inductive CSSNode where
  | rule : String → String → CSSNode
  | atRule : String → String → Option String → CSSNode
deriving DecidableEq

/-- Brace-depth scan of the source parser: consume characters, adjusting
the depth at each brace, until the depth returns to zero or the input ends.
Returns the consumed characters (including, in the balanced case, the final
closing brace) and the remainder. -/
def braceScan : Nat → List Char → List Char × List Char
  | _, [] => ([], [])
  | count, c :: cs =>
    if (if c = '\x7b' then count + 1 else if c = '\x7d' then count - 1 else count) = 0 then
      ([c], cs)
    else
      ((braceScan (if c = '\x7b' then count + 1 else if c = '\x7d' then count - 1 else count) cs).1.cons c,
       (braceScan (if c = '\x7b' then count + 1 else if c = '\x7d' then count - 1 else count) cs).2)

/-- The rule branch of the parser loop: text up to the next open brace is
the selector, the brace-scanned block is the body; both are trimmed, and
the node is kept only if both are nonempty.  A missing open brace stops the
whole scan (the source breaks out of its loop), signalled by none.  The
body drops the last consumed character: the closing brace when the scan
closed, or the final character of a truncated input. -/
def ruleSplit (cs : List Char) : Option (Option CSSNode × List Char) :=
  match cs.dropWhile (fun x => x ≠ '\x7b') with
  | [] => none
  | _ :: afterBrace =>
    some
      (if trimS ⟨cs.takeWhile (fun x => x ≠ '\x7b')⟩ ≠ "" ∧
          trimS ⟨(braceScan 1 afterBrace).1.dropLast⟩ ≠ "" then
        some (.rule (trimS ⟨cs.takeWhile (fun x => x ≠ '\x7b')⟩)
          (trimS ⟨(braceScan 1 afterBrace).1.dropLast⟩))
      else none,
      (braceScan 1 afterBrace).2)

/-- One iteration of the parser loop after whitespace skipping.  A leading
at-sign tries the at-rule head pattern (a nonempty word-character name,
then any characters other than an open brace and a semicolon, then a
semicolon or an open brace); if the pattern fails the source falls through
to rule parsing on the same text.  An at-rule block body is the raw
brace-scanned text with the last consumed character dropped, not trimmed. -/
def parseStep1 : List Char → Option (Option CSSNode × List Char)
  | [] => none
  | c :: cs' =>
    if c = '@' then
      if (cs'.takeWhile isWordChar).isEmpty then ruleSplit (c :: cs')
      else
        match (cs'.dropWhile isWordChar).dropWhile (fun x => x ≠ '\x7b' && x ≠ ';') with
        | ';' :: rest =>
          some (some (.atRule ⟨cs'.takeWhile isWordChar⟩
            (trimS ⟨(cs'.dropWhile isWordChar).takeWhile (fun x => x ≠ '\x7b' && x ≠ ';')⟩)
            none), rest)
        | '\x7b' :: rest =>
          some (some (.atRule ⟨cs'.takeWhile isWordChar⟩
            (trimS ⟨(cs'.dropWhile isWordChar).takeWhile (fun x => x ≠ '\x7b' && x ≠ ';')⟩)
            (some ⟨(braceScan 1 rest).1.dropLast⟩)), (braceScan 1 rest).2)
        | _ => ruleSplit (c :: cs')
    else ruleSplit (c :: cs')

/-- The parser loop of parseCSS, with explicit fuel counting loop
iterations.  Fuel exhaustion yields none; every iteration consumes at
least one character, so any fuel above the input length suffices (proved
below as parseCSSGo_fuel). -/
def parseCSSGo : Nat → List Char → Option (List CSSNode)
  | 0, _ => none
  | fuel + 1, css =>
    match css.dropWhile isWSChar with
    | [] => some []
    | c :: cs' =>
      match parseStep1 (c :: cs') with
      | none => some []
      | some (nodeOpt, rest) =>
        (parseCSSGo fuel rest).map (fun ns =>
          match nodeOpt with
          | some n => n :: ns
          | none => ns)

/-- Parse CSS into rules and at-rules, translated from parseCSS. -/
def parseCSS (css : String) : List CSSNode :=
  (parseCSSGo (css.data.length + 1) css.data).getD []

/-- Parse declarations from a rule body, translated from
parseDeclarations: split on semicolons, trim each part, split the part at
its first colon, trim both sides, and keep the pair when all of the part,
the property and the value are nonempty. -/
def parseDeclarations (body : String) : List (String × String) :=
  (splitChar ';' body.data).filterMap (fun part =>
    if (trimL part).isEmpty then none
    else
      match (trimL part).dropWhile (fun c => c ≠ ':') with
      | [] => none
      | _ :: afterColon =>
        if trimS ⟨(trimL part).takeWhile (fun c => c ≠ ':')⟩ ≠ "" ∧
            trimS ⟨afterColon⟩ ≠ "" then
          some (trimS ⟨(trimL part).takeWhile (fun c => c ≠ ':')⟩, trimS ⟨afterColon⟩)
        else none)

/-- Template-literal rendering of an at-rule body slot: a missing block
body is the JS null value, which the keyframes template of the source
stringifies to the word null. -/
def bodyOrNull : Option String → String
  | some b => b
  | none => "null"

/-- The per-node dispatch of the main loop of transformNativeScriptCSS.
The recursive whole-pipeline call used for layer bodies is passed in as a
function (it is instantiated with the fuel-decremented transformer below).
Returns the list of emitted output fragments, or none if the recursive
call ran out of fuel. -/
def goNodes (animParse : String → Except Unit (List (String × JSVal)))
    (serialize : String → JSVal → String) (rec : String → Option String) :
    List CSSNode → Option (List String)
  | [] => some []
  | node :: ns =>
    match node with
    | .atRule name params body =>
      if name = "layer" then
        match body with
        | some b =>
          if b ≠ "" then
            match rec b with
            | none => none
            | some nested => (goNodes animParse serialize rec ns).map (fun rest => nested :: rest)
          else goNodes animParse serialize rec ns
        | none => goNodes animParse serialize rec ns
      else if name = "keyframes" then
        (goNodes animParse serialize rec ns).map (fun rest =>
          ("@keyframes " ++ params ++ " \x7b\n" ++ bodyOrNull body ++ "\n\x7d") :: rest)
      else goNodes animParse serialize rec ns
    | .rule sel body =>
      if containsSubS sel "&" then goNodes animParse serialize rec ns
      else if !isSupportedSelector sel then goNodes animParse serialize rec ns
      else if transformSelector sel = "" then goNodes animParse serialize rec ns
      else
        match (parseDeclarations body).filterMap (fun d =>
          match transformDeclaration animParse serialize
              (if containsSubS sel "::placeholder" ∧ d.1 = "color" then "placeholder-color"
               else d.1) d.2 with
          | none => none
          | some td =>
            some (if td.1 = "__expanded__" then td.2 else td.1 ++ ": " ++ td.2)) with
        | [] => goNodes animParse serialize rec ns
        | d :: ds =>
          (goNodes animParse serialize rec ns).map (fun rest =>
            (transformSelector sel ++ " \x7b\n  " ++ joinSep ";\n  " (d :: ds) ++ ";\n\x7d") :: rest)

/-- The entry point with explicit fuel bounding the layer-recursion depth;
each recursive call is on the strictly shorter body of a parsed at-rule, so
any fuel above the input length suffices (proved below as
transformGo_fuel). -/
def transformGo (animParse : String → Except Unit (List (String × JSVal)))
    (serialize : String → JSVal → String) : Nat → String → Option String
  | 0, _ => none
  | fuel + 1, css =>
    (goNodes animParse serialize (fun b => transformGo animParse serialize fuel b)
      (parseCSS css)).map (fun outs => joinSep "\n\n" outs)

/-- Main CSS transformation function, translated from
transformNativeScriptCSS.  The options argument of the source carries only
the debug flag, which only gates console logging and never changes the
returned string, so it is omitted from the model; the two external
collaborators of the animation shorthand expansion are explicit
arguments. -/
def transformNativeScriptCSS (animParse : String → Except Unit (List (String × JSVal)))
    (serialize : String → JSVal → String) (css : String) : String :=
  (transformGo animParse serialize (css.data.length + 1) css).getD ""

/-- A trivial instantiation of the external animation-shorthand parser
(always failing) used for concrete evaluations that contain no animation
shorthand declaration. -/
def apFail : String → Except Unit (List (String × JSVal)) := fun _ => .error ()

/-- A trivial instantiation of the external serializer used for concrete
evaluations. -/
def serNil : String → JSVal → String := fun _ _ => ""

/-- Balanced-brace predicate relative to a starting surplus of open braces:
balFrom d cs holds when scanning cs closes exactly d more braces than it
opens and the running count of pending closers never exceeds the pending
openers.  balFrom 0 cs is the usual balancedness of cs. -/
def balFrom : Nat → List Char → Bool
  | d, [] => d == 0
  | d, c :: cs =>
    if c = '\x7b' then balFrom (d + 1) cs
    else if c = '\x7d' then (d != 0) && balFrom (d - 1) cs
    else balFrom d cs

/-- Per-position failure of the rem/em pattern: no suffix of the list
starts a match. -/
def noMatchL : List Char → Bool
  | [] => true
  | c :: cs => (remMatchAt (c :: cs)).isNone && noMatchL cs

/-- One rem/em occurrence inside a value, for stating the unit-conversion
claim: leading separator text, the numeral, optional whitespace, and the
unit (rem when useR, em otherwise). -/
structure RemSeg where
  sep : String
  num : String
  ws : String
  useR : Bool

def segText (g : RemSeg) : String :=
  g.sep ++ g.num ++ g.ws ++ (if g.useR then "rem" else "em")

def segOut (g : RemSeg) : String := g.sep ++ fmt16 g.num.data

/-- A value assembled from rem/em occurrences followed by trailing text. -/
def assemble : List RemSeg → String → String
  | [], tail => tail
  | g :: gs, tail => segText g ++ assemble gs tail

/-- The expected conversion output: every occurrence replaced,
independently and in order, by its scaled numeral. -/
def assembleOut : List RemSeg → String → String
  | [], tail => tail
  | g :: gs, tail => segOut g ++ assembleOut gs tail

/-- Side conditions making a segment a genuine, isolated occurrence: the
separator contains no occurrence of the pattern itself and does not end in
a digit or dot (which would extend the following numeral), the numeral is a
valid capture, and the whitespace slot is whitespace. -/
def segOK (g : RemSeg) : Bool :=
  noMatchL g.sep.data &&
    (g.sep.data.isEmpty || !isNumChar (g.sep.data.getLastD '.')) &&
    validNumRun g.num.data && g.ws.data.all isWSChar

/-! ## General lemmas about the string primitives -/

theorem data_append (a b : String) : (a ++ b).data = a.data ++ b.data := rfl

theorem mk_data (s : String) : (⟨s.data⟩ : String) = s := rfl

theorem dropWhile_length_le (p : Char → Bool) (l : List Char) :
    (l.dropWhile p).length ≤ l.length := by
  induction l with
  | nil => simp
  | cons x xs ih =>
    rw [List.dropWhile_cons]
    split
    · exact Nat.le_trans ih (Nat.le_succ _)
    · simp

theorem takeWhile_eq_self_of_all (p : Char → Bool) (l : List Char) (h : l.all p = true) :
    l.takeWhile p = l := by
  induction l with
  | nil => rfl
  | cons x xs ih =>
    rw [List.all_cons, Bool.and_eq_true] at h
    simp [List.takeWhile_cons, h.1, ih h.2]

theorem takeWhile_length_eq_iff_all (p : Char → Bool) (l : List Char) :
    (l.takeWhile p).length = l.length ↔ l.all p = true := by
  constructor
  · intro h
    have heq : l.takeWhile p = l := (List.takeWhile_prefix p).eq_of_length h
    have hall := List.all_takeWhile (l := l) (p := p)
    rwa [heq] at hall
  · intro h
    rw [takeWhile_eq_self_of_all p l h]

theorem dropWhile_eq_nil_of_all (p : Char → Bool) (l : List Char) (h : l.all p = true) :
    l.dropWhile p = [] := by
  induction l with
  | nil => rfl
  | cons x xs ih =>
    rw [List.all_cons, Bool.and_eq_true] at h
    simp [List.dropWhile_cons, h.1, ih h.2]

theorem dropWhile_ne_nil_of_not_all (p : Char → Bool) (l : List Char)
    (h : ¬ l.all p = true) : l.dropWhile p ≠ [] := by
  intro hnil
  apply h
  have := List.takeWhile_append_dropWhile p l
  rw [hnil, List.append_nil] at this
  rw [← takeWhile_length_eq_iff_all, this]

theorem head_dropWhile_false (p : Char → Bool) (l : List Char) (c : Char) (cs : List Char)
    (h : l.dropWhile p = c :: cs) : p c = false := by
  have := List.head_dropWhile_not p l (by simp [h])
  simpa [h] using this

theorem suffix_drop_eq (r l : List Char) (h : r <:+ l) :
    l.drop (l.length - r.length) = r := by
  obtain ⟨pre, rfl⟩ := h
  have hl : (pre ++ r).length - r.length = pre.length := by
    simp [List.length_append]
  rw [hl, List.drop_left]

theorem isPrefixL_append_self (xs ys : List Char) : isPrefixL xs (xs ++ ys) = true := by
  induction xs with
  | nil => rfl
  | cons x t ih => simp [isPrefixL, ih]

theorem isPrefixL_iff_append (pat l : List Char) :
    isPrefixL pat l = true ↔ ∃ t, l = pat ++ t := by
  constructor
  · intro h
    induction pat generalizing l with
    | nil => exact ⟨l, rfl⟩
    | cons p ps ih =>
      cases l with
      | nil => simp [isPrefixL] at h
      | cons c cs =>
        simp only [isPrefixL, Bool.and_eq_true, decide_eq_true_eq] at h
        obtain ⟨t, ht⟩ := ih cs h.2
        exact ⟨t, by simp [h.1, ht]⟩
  · rintro ⟨t, rfl⟩
    exact isPrefixL_append_self pat t

theorem prefix_append_boundary (pat xs ys : List Char)
    (h : isPrefixL pat (xs ++ ys) = true) :
    isPrefixL pat xs = true ∨
      (xs.length < pat.length ∧ isPrefixL (pat.drop xs.length) ys = true) := by
  induction pat generalizing xs with
  | nil => exact Or.inl rfl
  | cons p ps ih =>
    cases xs with
    | nil => exact Or.inr ⟨by simp, h⟩
    | cons x xt =>
      simp only [List.cons_append, isPrefixL, Bool.and_eq_true, decide_eq_true_eq] at h
      rcases ih xt h.2 with h1 | h2
      · exact Or.inl (by simp [isPrefixL, h.1, h1])
      · exact Or.inr ⟨by simpa using Nat.succ_lt_succ h2.1, by simpa using h2.2⟩

theorem containsSubL_append_right (pat pre l : List Char)
    (h : containsSubL pat l = true) : containsSubL pat (pre ++ l) = true := by
  induction pre with
  | nil => exact h
  | cons c cs ih => simp [containsSubL, ih]

theorem containsSubL_of_isPrefixL (pat l : List Char) (h : isPrefixL pat l = true) :
    containsSubL pat l = true := by
  cases l with
  | nil =>
    cases pat with
    | nil => rfl
    | cons p ps => simp [isPrefixL] at h
  | cons c cs => simp [containsSubL, h]

theorem containsSubL_of_suffix (pat r l : List Char) (hs : r <:+ l)
    (h : containsSubL pat r = true) : containsSubL pat l = true := by
  obtain ⟨pre, rfl⟩ := hs
  exact containsSubL_append_right pat pre r h

/-! ## The skip-counter scanners restated as match-step recursions -/

theorem remGo_skip (cs : List Char) : ∀ k, remGo k cs = remGo 0 (cs.drop k) := by
  induction cs with
  | nil => intro k; cases k <;> rfl
  | cons c cs ih =>
    intro k
    cases k with
    | zero => rfl
    | succ k => simpa [remGo] using ih k

theorem replaceGo_skip (pat rep : List Char) (cs : List Char) :
    ∀ k, replaceGo pat rep k cs = replaceGo pat rep 0 (cs.drop k) := by
  induction cs with
  | nil => intro k; cases k <;> rfl
  | cons c cs ih =>
    intro k
    cases k with
    | zero => rfl
    | succ k => simpa [replaceGo] using ih k

theorem whereGo_skip (cs : List Char) : ∀ k, whereGo k cs = whereGo 0 (cs.drop k) := by
  induction cs with
  | nil => intro k; cases k <;> rfl
  | cons c cs ih =>
    intro k
    cases k with
    | zero => rfl
    | succ k => simpa [whereGo] using ih k

theorem remMatchAt_numChar_head (c : Char) (cs : List Char) (x : List Char × List Char)
    (h : remMatchAt (c :: cs) = some x) : isNumChar c = true := by
  by_contra hn
  have htw : (c :: cs).takeWhile isNumChar = [] :=
    List.takeWhile_cons_of_neg (by simpa using hn)
  rw [remMatchAt, htw] at h
  simp [validNumRun] at h

theorem remMatchAt_suffix (c : Char) (cs run rest : List Char)
    (h : remMatchAt (c :: cs) = some (run, rest)) : rest <:+ cs := by
  have hn : isNumChar c = true := remMatchAt_numChar_head c cs _ h
  have hs1 : (c :: cs).dropWhile isNumChar = cs.dropWhile isNumChar :=
    List.dropWhile_cons_of_pos hn
  have hs2 : ((c :: cs).dropWhile isNumChar).dropWhile isWSChar <:+ cs := by
    rw [hs1]
    exact (List.dropWhile_suffix _).trans (List.dropWhile_suffix _)
  rw [remMatchAt] at h
  split at h
  · split at h
    · have := (Option.some.inj h)
      have hr : rest = (((c :: cs).dropWhile isNumChar).dropWhile isWSChar).drop 3 :=
        (congrArg Prod.snd this).symm
      rw [hr]
      exact (List.drop_suffix _ _).trans hs2
    · split at h
      · have := (Option.some.inj h)
        have hr : rest = (((c :: cs).dropWhile isNumChar).dropWhile isWSChar).drop 2 :=
          (congrArg Prod.snd this).symm
        rw [hr]
        exact (List.drop_suffix _ _).trans hs2
      · exact absurd h (by simp)
  · exact absurd h (by simp)

theorem remGo_match (c : Char) (cs run rest : List Char)
    (h : remMatchAt (c :: cs) = some (run, rest)) :
    remGo 0 (c :: cs) = (fmt16 run).data ++ remGo 0 rest := by
  have hs : rest <:+ cs := remMatchAt_suffix c cs run rest h
  have hd : cs.drop (cs.length - rest.length) = rest := suffix_drop_eq rest cs hs
  rw [remGo, h]
  show (fmt16 run).data ++ remGo (cs.length - rest.length) cs = _
  rw [remGo_skip, hd]

theorem remGo_nomatch (c : Char) (cs : List Char)
    (h : remMatchAt (c :: cs) = none) :
    remGo 0 (c :: cs) = c :: remGo 0 cs := by
  rw [remGo, h]

/-! ## Character-class facts -/

theorem wsChar_cases (c : Char) (h : isWSChar c = true) :
    c = ' ' ∨ c = '\t' ∨ c = '\n' ∨ c = '\r' ∨ c = '\x0b' ∨ c = '\x0c' := by
  simp [isWSChar] at h
  tauto

theorem wsChar_not_numChar (c : Char) (h : isWSChar c = true) : isNumChar c = false := by
  rcases wsChar_cases c h with rfl | rfl | rfl | rfl | rfl | rfl <;> decide

theorem numChar_not_wsChar (c : Char) (h : isNumChar c = true) : isWSChar c = false := by
  simp only [isNumChar, isDigitChar, Bool.or_eq_true, Bool.and_eq_true,
    decide_eq_true_eq] at h
  rcases h with ⟨h1, h2⟩ | rfl
  · by_contra hw
    rcases wsChar_cases c (by simpa using hw) with rfl | rfl | rfl | rfl | rfl | rfl <;>
      exact absurd h1 (by decide)
  · decide

theorem numChar_ne_rem_letters (c : Char) (h : isNumChar c = true) :
    c ≠ 'r' ∧ c ≠ 'e' ∧ c ≠ 'm' := by
  simp only [isNumChar, isDigitChar, Bool.or_eq_true, Bool.and_eq_true,
    decide_eq_true_eq] at h
  rcases h with ⟨h1, h2⟩ | rfl
  · refine ⟨?_, ?_, ?_⟩ <;> rintro rfl <;> exact absurd h2 (by decide)
  · refine ⟨by decide, by decide, by decide⟩

theorem all_getLastD (p : Char → Bool) (c : Char) (cs : List Char)
    (h : (c :: cs).all p = true) (x : Char) : p ((c :: cs).getLastD x) = true := by
  induction cs generalizing c x with
  | nil =>
    rw [List.all_cons, Bool.and_eq_true] at h
    simpa [List.getLastD_cons] using h.1
  | cons c2 cs2 ih =>
    rw [List.all_cons, Bool.and_eq_true] at h
    rw [List.getLastD_cons]
    exact ih c2 h.2 c

theorem getLastD_cons_indep (c : Char) (cs : List Char) (x y : Char) :
    (c :: cs).getLastD x = (c :: cs).getLastD y := by
  rw [List.getLastD_cons, List.getLastD_cons]

/-! ## The rem/em scanner on an isolated occurrence -/

theorem validNumRun_all (cs : List Char) (h : validNumRun cs = true) :
    cs.all isNumChar = true := by
  simp only [validNumRun, Bool.and_eq_true] at h
  exact h.1.1.2

theorem validNumRun_ne_nil (cs : List Char) (h : validNumRun cs = true) : cs ≠ [] := by
  simp only [validNumRun, Bool.and_eq_true] at h
  have := h.1.1.1
  cases cs with
  | nil => simp [List.isEmpty] at this
  | cons a l => exact List.cons_ne_nil a l

theorem remMatchAt_at_num (num ws rest : List Char) (useR : Bool)
    (hnum : validNumRun num = true) (hws : ws.all isWSChar = true) :
    remMatchAt (num ++ (ws ++ ((if useR then remPat else emPat) ++ rest))) =
      some (num, rest) := by
  have hall : ∀ a ∈ num, isNumChar a = true := by
    simpa [List.all_eq_true] using validNumRun_all num hnum
  have hwsall : ∀ a ∈ ws, isWSChar a = true := by
    simpa [List.all_eq_true] using hws
  have hpatws : ((if useR then remPat else emPat) ++ rest).dropWhile isWSChar =
      (if useR then remPat else emPat) ++ rest := by
    cases useR <;> simp only [if_true, if_false, remPat, emPat, List.cons_append] <;>
      exact List.dropWhile_cons_of_neg (by decide)
  have hXtw : (ws ++ ((if useR then remPat else emPat) ++ rest)).takeWhile isNumChar = [] := by
    cases hws0 : ws with
    | nil =>
      cases useR <;>
        simp only [List.nil_append, if_true, if_false, remPat, emPat, List.cons_append] <;>
        exact List.takeWhile_cons_of_neg (by decide)
    | cons w ws' =>
      have hw : isWSChar w = true := hwsall w (by simp [hws0])
      rw [List.cons_append]
      exact List.takeWhile_cons_of_neg (by simp [wsChar_not_numChar w hw])
  have hXdw : (ws ++ ((if useR then remPat else emPat) ++ rest)).dropWhile isNumChar =
      ws ++ ((if useR then remPat else emPat) ++ rest) := by
    have := List.takeWhile_append_dropWhile isNumChar
      (ws ++ ((if useR then remPat else emPat) ++ rest))
    rwa [hXtw, List.nil_append] at this
  have h1 : (num ++ (ws ++ ((if useR then remPat else emPat) ++ rest))).takeWhile isNumChar
      = num := by
    rw [List.takeWhile_append_of_pos hall, hXtw, List.append_nil]
  have h2 : (num ++ (ws ++ ((if useR then remPat else emPat) ++ rest))).dropWhile isNumChar
      = ws ++ ((if useR then remPat else emPat) ++ rest) := by
    rw [List.dropWhile_append_of_pos hall, hXdw]
  have h3 : (ws ++ ((if useR then remPat else emPat) ++ rest)).dropWhile isWSChar =
      (if useR then remPat else emPat) ++ rest := by
    rw [List.dropWhile_append_of_pos hwsall, hpatws]
  rw [remMatchAt, h1, h2, h3, if_pos hnum]
  cases useR with
  | true =>
    rw [if_pos (by simpa using isPrefixL_append_self remPat rest)]
    simp [remPat]
  | false =>
    rw [if_neg (by simp [remPat, emPat, isPrefixL]),
      if_pos (by simpa using isPrefixL_append_self emPat rest)]
    simp [emPat]

/-! ## No new match can arise inside a separator placed before an occurrence -/

theorem remMatchAt_ctx_none (d : Char) (rest : List Char) (t : Char) (ts : List Char)
    (ht : isNumChar t = true)
    (hnone : remMatchAt (d :: rest) = none)
    (hlast : isNumChar ((d :: rest).getLastD '.') = false) :
    remMatchAt ((d :: rest) ++ t :: ts) = none := by
  by_cases hall : (d :: rest).all isNumChar = true
  · have hgl := all_getLastD isNumChar d rest hall '.'
    rw [hgl] at hlast
    exact absurd hlast (by decide)
  · have htw : ((d :: rest) ++ t :: ts).takeWhile isNumChar =
        (d :: rest).takeWhile isNumChar := by
      rw [List.takeWhile_append,
        if_neg (fun hc => hall ((takeWhile_length_eq_iff_all isNumChar (d :: rest)).mp hc))]
    have hdwne := dropWhile_ne_nil_of_not_all isNumChar (d :: rest) hall
    have hdw : ((d :: rest) ++ t :: ts).dropWhile isNumChar =
        (d :: rest).dropWhile isNumChar ++ t :: ts := by
      rw [List.dropWhile_append, if_neg (by simpa [List.isEmpty_iff] using hdwne)]
    rw [remMatchAt, htw, hdw]
    by_cases hval : validNumRun ((d :: rest).takeWhile isNumChar) = true
    swap
    · rw [if_neg hval]
    rw [if_pos hval]
    obtain ⟨b, B, hb⟩ : ∃ b B, (d :: rest).dropWhile isNumChar = b :: B := by
      cases hdb : (d :: rest).dropWhile isNumChar with
      | nil => exact absurd hdb hdwne
      | cons b B => exact ⟨b, B, rfl⟩
    rw [hb]
    by_cases hwall : (b :: B).all isWSChar = true
    · have hwa : ∀ a ∈ b :: B, isWSChar a = true := by
        simpa [List.all_eq_true] using hwall
      have hdww : ((b :: B) ++ t :: ts).dropWhile isWSChar = t :: ts := by
        rw [List.dropWhile_append_of_pos hwa,
          List.dropWhile_cons_of_neg (by simp [numChar_not_wsChar t ht])]
      have hne := numChar_ne_rem_letters t ht
      rw [hdww, if_neg (by simp [remPat, isPrefixL, Ne.symm hne.1]),
        if_neg (by simp [emPat, isPrefixL, Ne.symm hne.2.1])]
    · -- the whitespace run stops inside the separator
      have hwne := dropWhile_ne_nil_of_not_all isWSChar (b :: B) hwall
      have hdw2 : ((b :: B) ++ t :: ts).dropWhile isWSChar =
          (b :: B).dropWhile isWSChar ++ t :: ts := by
        rw [List.dropWhile_append, if_neg (by simpa [List.isEmpty_iff] using hwne)]
      obtain ⟨w, W, hw⟩ : ∃ w W, (b :: B).dropWhile isWSChar = w :: W := by
        cases hdb : (b :: B).dropWhile isWSChar with
        | nil => exact absurd hdb hwne
        | cons w W => exact ⟨w, W, rfl⟩
      have hsep_some : ∀ pref : List Char, isPrefixL pref (w :: W) = true →
          (isPrefixL remPat (w :: W) = true ∨ isPrefixL emPat (w :: W) = true) →
          False := by
        intro _ _ hor
        have : remMatchAt (d :: rest) ≠ none := by
          rw [remMatchAt, if_pos hval, hb, hw]
          rcases hor with h | h
          · rw [if_pos h]; simp
          · by_cases hr : isPrefixL remPat (w :: W) = true
            · rw [if_pos hr]; simp
            · rw [if_neg hr, if_pos h]; simp
        exact this hnone
      have hne := numChar_ne_rem_letters t ht
      rw [hdw2, hw]
      have hrem : isPrefixL remPat (w :: (W ++ t :: ts)) = false := by
        by_contra hx
        have hx' : isPrefixL remPat ((w :: W) ++ t :: ts) = true := by
          revert hx; cases hc : isPrefixL remPat ((w :: W) ++ t :: ts) <;>
            simp [List.cons_append] at hc ⊢ <;> simp [hc]
        rcases prefix_append_boundary remPat (w :: W) (t :: ts) hx' with hp | ⟨hk, hkp⟩
        · exact hsep_some remPat hp (Or.inl hp)
        · have h1 : (w :: W).length = 1 ∨ (w :: W).length = 2 := by
            simp only [remPat, List.length_cons, List.length_nil] at hk
            simp only [List.length_cons]
            omega
          rcases h1 with h1 | h1
          · rw [h1] at hkp
            simp [remPat, isPrefixL, Ne.symm hne.2.1] at hkp
          · rw [h1] at hkp
            simp [remPat, isPrefixL, Ne.symm hne.2.2] at hkp
      have hem : isPrefixL emPat (w :: (W ++ t :: ts)) = false := by
        by_contra hx
        have hx' : isPrefixL emPat ((w :: W) ++ t :: ts) = true := by
          revert hx; cases hc : isPrefixL emPat ((w :: W) ++ t :: ts) <;>
            simp [List.cons_append] at hc ⊢ <;> simp [hc]
        rcases prefix_append_boundary emPat (w :: W) (t :: ts) hx' with hp | ⟨hk, hkp⟩
        · exact hsep_some emPat hp (Or.inr hp)
        · have h1 : (w :: W).length = 1 := by
            simp only [emPat, List.length_cons, List.length_nil] at hk
            simp only [List.length_cons]
            omega
          rw [h1] at hkp
          simp [emPat, isPrefixL, Ne.symm hne.2.2] at hkp
      rw [if_neg (by simp [hrem]), if_neg (by simp [hem])]

/-! ## Scanning through separators and assembled values -/

theorem noMatchL_cons (c : Char) (cs : List Char) (h : noMatchL (c :: cs) = true) :
    remMatchAt (c :: cs) = none ∧ noMatchL cs = true := by
  simp only [noMatchL, Bool.and_eq_true, Option.isNone_iff_eq_none] at h
  exact h

theorem remGo_id_of_noMatch (cs : List Char) (h : noMatchL cs = true) :
    remGo 0 cs = cs := by
  induction cs with
  | nil => rfl
  | cons c cs ih =>
    obtain ⟨h1, h2⟩ := noMatchL_cons c cs h
    rw [remGo_nomatch c cs h1, ih h2]

theorem remGo_pass_sep (sep : List Char) (t : Char) (ts : List Char)
    (hnm : noMatchL sep = true)
    (hlast : (sep.isEmpty || !isNumChar (sep.getLastD '.')) = true)
    (ht : isNumChar t = true) :
    remGo 0 (sep ++ t :: ts) = sep ++ remGo 0 (t :: ts) := by
  induction sep with
  | nil => simp
  | cons d rest ih =>
    obtain ⟨hnone, hnm2⟩ := noMatchL_cons d rest hnm
    have hlast1 : isNumChar ((d :: rest).getLastD '.') = false := by
      simpa using hlast
    have hctx : remMatchAt (d :: (rest ++ t :: ts)) = none := by
      have := remMatchAt_ctx_none d rest t ts ht hnone hlast1
      simpa [List.cons_append] using this
    rw [List.cons_append, remGo_nomatch d (rest ++ t :: ts) hctx]
    have hlast2 : (rest.isEmpty || !isNumChar (rest.getLastD '.')) = true := by
      cases rest with
      | nil => simp [List.isEmpty]
      | cons r rs =>
        rw [List.getLastD_cons] at hlast1
        simp only [List.isEmpty, Bool.false_or]
        rw [getLastD_cons_indep r rs '.' d, hlast1]
        decide
    rw [ih hnm2 hlast2, List.cons_append]

theorem remGo_assemble (segs : List RemSeg) (tail : String)
    (hsegs : segs.all segOK = true) (htail : noMatchL tail.data = true) :
    remGo 0 ((assemble segs tail).data) = (assembleOut segs tail).data := by
  induction segs with
  | nil => exact remGo_id_of_noMatch tail.data htail
  | cons g gs ih =>
    rw [List.all_cons, Bool.and_eq_true] at hsegs
    have hok := hsegs.1
    simp only [segOK, Bool.and_eq_true] at hok
    obtain ⟨⟨⟨hsep, hlast⟩, hnum⟩, hws⟩ := hok
    obtain ⟨n0, ntail, hn⟩ : ∃ n0 ntail, g.num.data = n0 :: ntail := by
      cases hnd : g.num.data with
      | nil => exact absurd hnd (validNumRun_ne_nil g.num.data hnum)
      | cons a l => exact ⟨a, l, rfl⟩
    have hn0 : isNumChar n0 = true := by
      have := validNumRun_all g.num.data hnum
      rw [hn, List.all_cons, Bool.and_eq_true] at this
      exact this.1
    have hsdata : (if g.useR then "rem" else "em").data =
        (if g.useR then remPat else emPat) := by
      cases g.useR <;> rfl
    have hm := remMatchAt_at_num g.num.data g.ws.data (assemble gs tail).data g.useR hnum hws
    have hpass := remGo_pass_sep g.sep.data n0 (ntail ++ (g.ws.data ++
        ((if g.useR then remPat else emPat) ++ (assemble gs tail).data))) hsep hlast hn0
    rw [hn] at hm
    have hseg : (assemble (g :: gs) tail).data =
        g.sep.data ++ (n0 :: (ntail ++ (g.ws.data ++
          ((if g.useR then remPat else emPat) ++ (assemble gs tail).data)))) := by
      show (segText g ++ assemble gs tail).data = _
      simp only [segText, data_append, List.append_assoc, hsdata, hn, List.cons_append]
    rw [hseg, hpass]
    simp only [List.cons_append] at hm
    rw [remGo_match _ _ _ _ hm, ih hsegs.2]
    show _ = (segOut g ++ assembleOut gs tail).data
    simp [segOut, data_append, List.append_assoc, hn]

theorem remMatchAt_some_contains_em (c : Char) (cs : List Char)
    (x : List Char × List Char) (h : remMatchAt (c :: cs) = some x) :
    containsSubL emPat (c :: cs) = true := by
  have hsuf : ((c :: cs).dropWhile isNumChar).dropWhile isWSChar <:+ (c :: cs) :=
    (List.dropWhile_suffix _).trans (List.dropWhile_suffix _)
  rw [remMatchAt] at h
  split at h
  · split at h
    · rename_i hp
      obtain ⟨t2, ht2⟩ := (isPrefixL_iff_append remPat _).mp hp
      apply containsSubL_of_suffix emPat _ _ hsuf
      rw [ht2]
      show containsSubL emPat ('r' :: ('e' :: 'm' :: t2)) = true
      have : isPrefixL emPat ('e' :: 'm' :: t2) = true := by simp [emPat, isPrefixL]
      simp [containsSubL, this]
    · split at h
      · rename_i hp
        exact containsSubL_of_suffix emPat _ _ hsuf (containsSubL_of_isPrefixL _ _ hp)
      · exact absurd h (by simp)
  · exact absurd h (by simp)

theorem noMatchL_of_no_em (cs : List Char) (h : containsSubL emPat cs = false) :
    noMatchL cs = true := by
  induction cs with
  | nil => rfl
  | cons c cs ih =>
    rw [containsSubL] at h
    have h1 : isPrefixL emPat (c :: cs) = false := by
      cases hc : isPrefixL emPat (c :: cs) <;> simp [hc] at h ⊢
    have h2 : containsSubL emPat cs = false := by
      cases hc : containsSubL emPat cs <;> simp [hc] at h ⊢
    rw [noMatchL, Bool.and_eq_true, Option.isNone_iff_eq_none]
    refine ⟨?_, ih h2⟩
    cases hm : remMatchAt (c :: cs) with
    | none => rfl
    | some x =>
      have := remMatchAt_some_contains_em c cs x hm
      rw [containsSubL, h1, h2] at this
      simp at this

theorem transformValue_eq_remReplace (s : String) :
    transformValue s = ⟨remReplace s.data⟩ := by
  by_cases hs : s = ""
  · subst hs
    rfl
  · rw [transformValue, if_neg hs]
    by_cases hg : (containsSubS s "rem" || containsSubS s "em") = true
    · rw [if_pos hg]
    · rw [if_neg hg]
      have hem : containsSubL emPat s.data = false := by
        have : containsSubS s "em" = false := by
          cases h1 : containsSubS s "em"
          · rfl
          · rw [h1] at hg; simp at hg
        exact this
      show s = (⟨remGo 0 s.data⟩ : String)
      rw [remGo_id_of_noMatch s.data (noMatchL_of_no_em s.data hem)]

theorem isPrefixL_of_append_left (a b s : List Char)
    (h : isPrefixL (a ++ b) s = true) : isPrefixL a s = true := by
  obtain ⟨t, rfl⟩ := (isPrefixL_iff_append _ _).mp h
  rw [List.append_assoc]
  exact isPrefixL_append_self a (b ++ t)

theorem append_s_ne_unset (s : String) : s ++ "s" ≠ "unset" := by
  intro h
  have hd := congrArg (fun x => x.data.getLast?) h
  simp only [data_append] at hd
  have h1 : (s.data ++ "s".data).getLast? = some 's' := by
    show (s.data ++ ['s']).getLast? = some 's'
    exact List.getLast?_concat _
  rw [h1] at hd
  simp at hd

/-! ## C2: per-occurrence linear rem/em conversion -/

/-- C2 counterexample: the conversion does not yield the exact decimal
number n * 16.  parseFloat rounds the numeral to binary64 before the
multiplication, and String prints exponential notation below 10 ^ -6, so
0.00000001rem becomes 1.6e-7 (not 0.00000016) and
0.30000000000000000001rem becomes 4.8 (not 4.80000000000000000016). -/
theorem rem_em_double_rounding_counterexample :
    transformValue "margin: 0.00000001rem" = "margin: 1.6e-7" ∧
    ("margin: 1.6e-7" : String) ≠ "margin: 0.00000016" ∧
    transformValue "margin: 0.30000000000000000001rem" = "margin: 4.8" ∧
    ("margin: 4.8" : String) ≠ "margin: 4.80000000000000000016" :=
  ⟨by decide, by decide, by decide, by decide⟩

/-- C2 (amended): value rewriting of relative-length units is linear and
applied per occurrence: in a value assembled from any list of occurrences
(separator text, a numeral n, optional whitespace, the unit rem or em) and
trailing text, every occurrence is replaced, independently and left to
right, by String(parseFloat(n) * 16) — the binary64 product printed as the
shortest read-back decimal, which agrees with the exact decimal n * 16 for
the short numerals the generator emits but not universally — and all other
text is preserved. -/
theorem rem_em_conversion (segs : List RemSeg) (tail : String)
    (hsegs : segs.all segOK = true) (htail : noMatchL tail.data = true) :
    transformValue (assemble segs tail) = assembleOut segs tail := by
  rw [transformValue_eq_remReplace]
  show (⟨remGo 0 (assemble segs tail).data⟩ : String) = _
  rw [remGo_assemble segs tail hsegs htail]

/-- Witness for C2 at a concrete input: two occurrences, one rem with a
fractional multiplier and one em separated from its number by a space. -/
theorem rem_em_conversion_witness :
    transformValue "margin: 1.5rem 2 em auto" = "margin: 24 32 auto" :=
  rem_em_conversion
    [⟨"margin: ", "1.5", "", true⟩, ⟨" ", "2", " ", false⟩] " auto"
    (by decide) (by decide)

/-! ## C1: properties absent from the support table -/

/-- C1 counterexample: the claim fails in two ways.  foobar is absent from
the support table and does not start with the custom-property prefix, the
input declares it both in a style rule and inside a keyframes block, and
the output still contains the declaration (the keyframes body is
reproduced verbatim).  And toString, equally absent from the written
table, is found on the prototype chain of the object literal (a truthy
non-array function), so the program treats it as supported and keeps its
declaration in a transformed style rule. -/
theorem unsupported_prop_keyframes_leak :
    lookupProp "foobar" = none ∧ startsWithS "--" "foobar" = false ∧
    transformNativeScriptCSS apFail serNil
      ".a \x7b foobar: 1; \x7d\n@keyframes k \x7b from \x7b foobar: 2; \x7d \x7d" =
      "@keyframes k \x7b\n from \x7b foobar: 2; \x7d \n\x7d" ∧
    containsSubS
      (transformNativeScriptCSS apFail serNil
        ".a \x7b foobar: 1; \x7d\n@keyframes k \x7b from \x7b foobar: 2; \x7d \x7d")
      "foobar: 2" = true ∧
    (supportedProperties.map Prod.fst).contains "toString" = false ∧
    startsWithS "--" "toString" = false ∧
    transformNativeScriptCSS apFail serNil ".a \x7b toString: 1; \x7d" =
      ".a \x7b\n  toString: 1;\n\x7d" :=
  ⟨by decide, by decide, by decide, by decide, by decide, by decide, by decide⟩

/-- C1 (amended): for every declaration whose property name is found
neither in the written support table nor among the Object.prototype member
names the object literal inherits (lookupProp models both), and which does
not start with the custom-property prefix, the declaration transformer
drops it (returns none), so no transformed style rule of the output
carries that property; the property can still reach the output through a
verbatim-preserved keyframes body, and an inherited name such as toString
is treated as supported and kept. -/
theorem transformDeclaration_unsupported_dropped
    (ap : String → Except Unit (List (String × JSVal)))
    (ser : String → JSVal → String) (prop value : String)
    (habs : lookupProp prop = none) (hpre : startsWithS "--" prop = false) :
    transformDeclaration ap ser prop value = none := by
  have h5 : (twSkipVars.any fun v => startsWithS ("--" ++ v) prop) = false := by
    by_contra hx
    have hx' : (twSkipVars.any fun v => startsWithS ("--" ++ v) prop) = true := by
      cases hc : (twSkipVars.any fun v => startsWithS ("--" ++ v) prop)
      · exact absurd hc hx
      · rfl
    rw [List.any_eq_true] at hx'
    obtain ⟨v, hv, hsw⟩ := hx'
    have hps : startsWithS "--" prop = true := by
      rw [startsWithS] at hsw ⊢
      rw [data_append] at hsw
      exact isPrefixL_of_append_left _ _ _ hsw
    rw [hps] at hpre
    simp at hpre
  have hvis : prop ≠ "visibility" := by
    rintro rfl
    exact absurd habs (by decide)
  have hva : prop ≠ "vertical-align" := by
    rintro rfl
    exact absurd habs (by decide)
  have hanim : prop ≠ "animation" := by
    rintro rfl
    exact absurd habs (by decide)
  have hsupp : isSupportedProperty prop (transformValue value) = false := by
    rw [isSupportedProperty, habs]
  unfold transformDeclaration
  rw [if_neg (by simp [h5])]
  by_cases h2 : (twReversePatterns.any fun pat => containsSubS prop pat) = true
  · rw [if_pos h2]
  rw [if_neg h2]
  by_cases h3 : containsSubS value "color-mix" = true
  · rw [if_pos h3]
  rw [if_neg h3]
  by_cases h4 : containsSubS value "currentColor" = true
  · rw [if_pos h4]
  rw [if_neg h4]
  rw [if_neg (fun hc => hvis hc.1), if_neg (fun hc => hva hc.1), if_neg hanim]
  rw [if_pos (by rw [hpre, hsupp]; rfl)]

/-- Witness for the amended C1 at a concrete unsupported property. -/
theorem transformDeclaration_unsupported_dropped_witness :
    transformDeclaration apFail serNil "foobar" "1" = none :=
  transformDeclaration_unsupported_dropped apFail serNil "foobar" "1"
    (by decide) (by decide)

/-! ## C3: custom-property declarations -/

/-- C3 counterexample: a custom property outside the dropped families is
nevertheless dropped when its value contains color-mix (or currentColor),
contradicting the claim that such declarations are always kept regardless
of value. -/
theorem custom_prop_value_dropped :
    startsWithS "--" "--my-color" = true ∧
    (twSkipVars.any fun v => startsWithS ("--" ++ v) "--my-color") = false ∧
    (twReversePatterns.any fun p => containsSubS "--my-color" p) = false ∧
    transformDeclaration apFail serNil "--my-color" "color-mix(in srgb, red, blue)" = none ∧
    transformDeclaration apFail serNil "--my-color" "currentColor" = none :=
  ⟨by decide, by decide, by decide, by decide, by decide⟩

/-- C3 (amended): a declaration whose property starts with the
custom-property prefix is dropped exactly when its name starts with one of
the five internal prefixes, or matches the divide-and-space reverse
pattern, or its value contains color-mix or currentColor; otherwise it is
kept with its name unmodified and its value rewritten only for
relative-length units. -/
theorem transformDeclaration_custom_prop
    (ap : String → Except Unit (List (String × JSVal)))
    (ser : String → JSVal → String) (prop value : String)
    (hpre : startsWithS "--" prop = true) :
    transformDeclaration ap ser prop value =
      if ((twSkipVars.any fun v => startsWithS ("--" ++ v) prop) ||
          (twReversePatterns.any fun p => containsSubS prop p) ||
          containsSubS value "color-mix" || containsSubS value "currentColor") = true
      then none
      else some (prop, transformValue value) := by
  obtain ⟨t, ht⟩ := (isPrefixL_iff_append "--".data prop.data).mp hpre
  have hvis : prop ≠ "visibility" := by
    rintro rfl
    have hh := congrArg List.head? ht
    simp at hh
  have hva : prop ≠ "vertical-align" := by
    rintro rfl
    have hh := congrArg List.head? ht
    simp at hh
  have hanim : prop ≠ "animation" := by
    rintro rfl
    have hh := congrArg List.head? ht
    simp at hh
  unfold transformDeclaration
  by_cases h1 : (twSkipVars.any fun v => startsWithS ("--" ++ v) prop) = true
  · rw [if_pos h1, if_pos (by simp [h1])]
  rw [if_neg h1]
  by_cases h2 : (twReversePatterns.any fun p => containsSubS prop p) = true
  · rw [if_pos h2, if_pos (by simp [h2])]
  rw [if_neg h2]
  by_cases h3 : containsSubS value "color-mix" = true
  · rw [if_pos h3, if_pos (by simp [h3])]
  rw [if_neg h3]
  by_cases h4 : containsSubS value "currentColor" = true
  · rw [if_pos h4, if_pos (by simp [h4])]
  rw [if_neg h4]
  rw [if_neg (fun hc => hvis hc.1), if_neg (fun hc => hva hc.1), if_neg hanim]
  rw [if_neg (by rw [hpre]; simp)]
  rw [if_neg (by simp [Bool.or_eq_true] at h1 h2 h3 h4 ⊢; exact ⟨⟨⟨h1, h2⟩, h3⟩, h4⟩)]

/-- Witness for the amended C3: kept custom properties with rem values,
one converting exactly and one through the exponential rendering of the
binary64 product. -/
theorem transformDeclaration_custom_prop_witness :
    transformDeclaration apFail serNil "--x" "1rem" = some ("--x", "16") ∧
    transformDeclaration apFail serNil "--y" "0.00000001rem" = some ("--y", "1.6e-7") :=
  ⟨transformDeclaration_custom_prop apFail serNil "--x" "1rem" (by decide),
   transformDeclaration_custom_prop apFail serNil "--y" "0.00000001rem" (by decide)⟩

/-! ## C6: animation shorthand expansion -/

/-- C6 counterexample: the claim fails on the code in two places.  A
duration the external parser returns as the integer 0 (milliseconds) is
emitted as the raw number 0, not reformatted to a seconds value (the source
guards the conversion behind JS truthiness, and 0 is falsy).  And an
animation declaration whose value contains color-mix is dropped by the
unconditional value checks that run before the expansion, so the
declaration is not never-dropped. -/
theorem animation_expansion_counterexample :
    expandAnimation serNil "0s spin"
      (.ok [("name", .jstr "spin"), ("duration", .jnum 0 0),
            ("timingFunction", .jstr "unset")]) =
      "animation-name: spin;\n  animation-duration: 0" ∧
    transformDeclaration apFail serNil "animation"
      "var(--x) color-mix(in srgb, red, blue)" = none :=
  ⟨by decide, by decide⟩

theorem filterMap_congr_own {α β : Type} (f g : α → Option β) :
    ∀ l : List α, (∀ e ∈ l, f e = g e) → l.filterMap f = l.filterMap g := by
  intro l
  induction l with
  | nil => intro _; rfl
  | cons a t ih =>
    intro h
    rw [List.filterMap_cons, List.filterMap_cons, h a (List.mem_cons_self _ _),
      ih (fun e he => h e (List.mem_cons_of_mem _ he))]

theorem map_filter_map_fused {α β : Type} (s2 : α → α) (pr : α → Bool) (em : α → β) :
    ∀ l : List α, ((l.map s2).filter pr).map em =
      l.filterMap (fun e => if pr (s2 e) = true then some (em (s2 e)) else none) := by
  intro l
  induction l with
  | nil => rfl
  | cons a t ih =>
    rw [List.map_cons, List.filter_cons, List.filterMap_cons]
    by_cases h : pr (s2 a) = true
    · rw [if_pos h, if_pos h, List.map_cons, ih]
    · rw [if_neg h, if_neg h, ih]

theorem lookupAssoc_none_keys (k : String) : ∀ (l : List (String × JSVal)),
    lookupAssoc k l = none → ∀ e ∈ l, e.1 ≠ k := by
  intro l
  induction l with
  | nil => intro _ e he; exact absurd he (List.not_mem_nil _)
  | cons a t ih =>
    intro h e he
    rw [lookupAssoc] at h
    by_cases ha : a.1 = k
    · rw [if_pos ha] at h
      exact absurd h (by simp)
    · rw [if_neg ha] at h
      rcases List.mem_cons.mp he with rfl | ht
      · exact ha
      · exact ih h e ht

theorem lookupAssoc_nodup_mem : ∀ (l : List (String × JSVal)),
    (l.map Prod.fst).Nodup → ∀ e ∈ l, lookupAssoc e.1 l = some e.2 := by
  intro l
  induction l with
  | nil => intro _ e he; exact absurd he (List.not_mem_nil _)
  | cons a t ih =>
    intro hnd e he
    rw [List.map_cons, List.nodup_cons] at hnd
    rcases List.mem_cons.mp he with rfl | ht
    · rw [lookupAssoc, if_pos rfl]
    · rw [lookupAssoc]
      by_cases ha : a.1 = e.1
      · exact absurd (ha ▸ List.mem_map_of_mem Prod.fst ht) hnd.1
      · rw [if_neg ha]
        exact ih hnd.2 e ht

theorem animEmit_eq_ND_of (ser : String → JSVal → String) (e : String × JSVal)
    (h : ∀ (m : Int) (kk : Nat), e.1 = "duration" → e.2 = JSVal.jnum m kk →
      ¬(roundRatD m.natAbs (10 ^ kk) ≠ Dbl.zero ∧
        dblIsInt (roundRatD m.natAbs (10 ^ kk)) = true)) :
    animEmit ser e = animEmitND ser e := by
  obtain ⟨key, v⟩ := e
  cases v with
  | jstr s => rfl
  | jobj o => rfl
  | jnum m kk =>
    have hres : animResolve ser (key, JSVal.jnum m kk) = JSVal.jnum m kk := by
      unfold animResolve
      exact if_neg (fun hc => h m kk hc.1 rfl ⟨hc.2.1, hc.2.2⟩)
    unfold animEmit animEmitND
    rw [hres]
    rfl

theorem animEmitND_pipe (ser : String → JSVal → String) (e : String × JSVal) :
    (if ((animStage2 ser e).2 != JSVal.jstr "unset") = true
     then some ("animation-" ++ camelToKebab (animStage2 ser e).1 ++ ": " ++
       jsValFmt (animStage2 ser e).2)
     else none) = animEmitND ser e := by
  obtain ⟨key, v⟩ := e
  cases v with
  | jstr s =>
    by_cases hu : s = "unset"
    · subst hu
      simp [animStage2, animEmitND, animResolveND, bne]
    · simp [animStage2, animEmitND, animResolveND, bne, hu]
  | jnum m kk => simp [animStage2, animEmitND, animResolveND, bne]
  | jobj o =>
    by_cases hu : headToken (ser key (.jobj o)) = "unset"
    · simp [animStage2, animEmitND, animResolveND, bne, hu]
    · simp [animStage2, animEmitND, animResolveND, bne, hu]

theorem animEmitND_update (ser : String → JSVal → String) (m : Int) (kk : Nat)
    (hcond : roundRatD m.natAbs (10 ^ kk) ≠ Dbl.zero ∧
      dblIsInt (roundRatD m.natAbs (10 ^ kk)) = true) :
    ∀ (l : List (String × JSVal)), (l.map Prod.fst).Nodup →
    lookupAssoc "duration" l = some (JSVal.jnum m kk) →
    (updateAssoc "duration" (JSVal.jstr (jsDivStr1000 m kk ++ "s")) l).filterMap
        (animEmitND ser) =
      l.filterMap (animEmit ser) := by
  intro l
  induction l with
  | nil => intro _ _; rfl
  | cons a t ih =>
    intro hnd hlook
    rw [List.map_cons, List.nodup_cons] at hnd
    by_cases ha : a.1 = "duration"
    · have hval : a.2 = JSVal.jnum m kk := by
        rw [lookupAssoc, if_pos ha] at hlook
        exact Option.some.inj hlook
      rw [updateAssoc, if_pos ha, List.filterMap_cons, List.filterMap_cons]
      have hhead : animEmitND ser (a.1, JSVal.jstr (jsDivStr1000 m kk ++ "s")) =
          animEmit ser a := by
        have hr1 : animResolveND ser (a.1, JSVal.jstr (jsDivStr1000 m kk ++ "s")) =
            JSVal.jstr (jsDivStr1000 m kk ++ "s") := rfl
        have hr2 : animResolve ser a = JSVal.jstr (jsDivStr1000 m kk ++ "s") := by
          obtain ⟨k1, v1⟩ := a
          simp only at ha hval
          subst ha
          subst hval
          unfold animResolve
          exact if_pos ⟨rfl, hcond.1, hcond.2⟩
        unfold animEmitND animEmit
        rw [hr1, hr2]
      have htail : t.filterMap (animEmitND ser) = t.filterMap (animEmit ser) := by
        refine (filterMap_congr_own _ _ t (fun e he => ?_)).symm
        refine animEmit_eq_ND_of ser e (fun m2 k2 hdur _ _ => ?_)
        exact hnd.1 (ha ▸ hdur ▸ List.mem_map_of_mem Prod.fst he)
      rw [hhead, htail]
    · rw [updateAssoc, if_neg ha, List.filterMap_cons, List.filterMap_cons]
      have hhead : animEmitND ser a = animEmit ser a :=
        (animEmit_eq_ND_of ser a (fun m2 k2 hdur _ _ => ha hdur)).symm
      rw [lookupAssoc, if_neg ha] at hlook
      rw [hhead, ih hnd.2 hlook]

/-- C6 (amended): for every parse result of the external shorthand parser
(an association list with distinct keys, as a JS object has), the expansion
emits exactly one longhand line per sub-property that does not resolve to
the literal unset, in order, joined by the fixed separator; a duration the
parser returns as a truthy (nonzero binary64) integer millisecond count is
reformatted to String(duration / 1000) with unit suffix s; sub-properties
resolving to unset are omitted; other string sub-values are emitted as
animation-(kebab-case-name): value; on any parse failure the original
unmodified animation declaration is emitted verbatim; and the animation
declaration always reaches the expansion (is never dropped) as long as its
value does not contain color-mix or currentColor. -/
theorem animation_expansion_behavior :
    (∀ (ser : String → JSVal → String) (value : String),
      expandAnimation ser value (.error ()) = "animation: " ++ value) ∧
    (∀ (ser : String → JSVal → String) (value : String)
        (entries : List (String × JSVal)),
      (entries.map Prod.fst).Nodup →
      expandAnimation ser value (.ok entries) =
        joinSep ";\n  " (entries.filterMap (animEmit ser))) ∧
    (∀ (ser : String → JSVal → String) (m : Int) (k : Nat),
      roundRatD m.natAbs (10 ^ k) ≠ Dbl.zero →
      dblIsInt (roundRatD m.natAbs (10 ^ k)) = true →
      animEmit ser ("duration", .jnum m k) =
        some ("animation-duration: " ++ (jsDivStr1000 m k ++ "s"))) ∧
    (∀ (ser : String → JSVal → String) (key : String),
      animEmit ser (key, .jstr "unset") = none) ∧
    (∀ (ser : String → JSVal → String) (key s : String), s ≠ "unset" →
      animEmit ser (key, .jstr s) =
        some ("animation-" ++ camelToKebab key ++ ": " ++ s)) ∧
    (∀ (ap : String → Except Unit (List (String × JSVal)))
       (ser : String → JSVal → String) (value : String),
      containsSubS value "color-mix" = false →
      containsSubS value "currentColor" = false →
      transformDeclaration ap ser "animation" value =
        some ("__expanded__", expandAnimation ser value (ap value))) := by
  refine ⟨fun ser value => rfl, ?_, ?_, ?_, ?_, ?_⟩
  · intro ser value entries hnd
    simp only [expandAnimation]
    rw [map_filter_map_fused (animStage2 ser)
      (fun e => e.2 != JSVal.jstr "unset")
      (fun e => "animation-" ++ camelToKebab e.1 ++ ": " ++ jsValFmt e.2)]
    rcases Option.eq_none_or_eq_some (lookupAssoc "duration" entries) with hlook | ⟨v, hlook⟩
    · simp only [hlook]
      rw [filterMap_congr_own _ _ entries (fun e _ => animEmitND_pipe ser e)]
      rw [filterMap_congr_own (animEmitND ser) (animEmit ser) entries (fun e he =>
        (animEmit_eq_ND_of ser e (fun m2 k2 hdur _ =>
          absurd hdur (lookupAssoc_none_keys "duration" entries hlook e he))).symm)]
    · cases v with
      | jstr s =>
        simp only [hlook]
        rw [filterMap_congr_own _ _ entries (fun e _ => animEmitND_pipe ser e)]
        rw [filterMap_congr_own (animEmitND ser) (animEmit ser) entries (fun e he =>
          (animEmit_eq_ND_of ser e (fun m2 k2 hdur heq => by
            have hl2 := lookupAssoc_nodup_mem entries hnd e he
            rw [hdur, hlook] at hl2
            have hv : JSVal.jstr s = JSVal.jnum m2 k2 := by
              rw [← heq]
              exact Option.some.inj hl2
            exact absurd hv (by simp))).symm)]
      | jobj o =>
        simp only [hlook]
        rw [filterMap_congr_own _ _ entries (fun e _ => animEmitND_pipe ser e)]
        rw [filterMap_congr_own (animEmitND ser) (animEmit ser) entries (fun e he =>
          (animEmit_eq_ND_of ser e (fun m2 k2 hdur heq => by
            have hl2 := lookupAssoc_nodup_mem entries hnd e he
            rw [hdur, hlook] at hl2
            have hv : JSVal.jobj o = JSVal.jnum m2 k2 := by
              rw [← heq]
              exact Option.some.inj hl2
            exact absurd hv (by simp))).symm)]
      | jnum m2 k2 =>
        simp only [hlook]
        by_cases hcond : roundRatD m2.natAbs (10 ^ k2) ≠ Dbl.zero ∧
            dblIsInt (roundRatD m2.natAbs (10 ^ k2)) = true
        · rw [if_pos hcond]
          rw [filterMap_congr_own _ _ _ (fun e _ => animEmitND_pipe ser e)]
          rw [animEmitND_update ser m2 k2 hcond entries hnd hlook]
        · rw [if_neg hcond]
          rw [filterMap_congr_own _ _ entries (fun e _ => animEmitND_pipe ser e)]
          rw [filterMap_congr_own (animEmitND ser) (animEmit ser) entries (fun e he =>
            (animEmit_eq_ND_of ser e (fun m3 k3 hdur heq hc => by
              have hl2 := lookupAssoc_nodup_mem entries hnd e he
              rw [hdur, hlook] at hl2
              have hv : JSVal.jnum m2 k2 = JSVal.jnum m3 k3 := by
                rw [← heq]
                exact Option.some.inj hl2
              injection hv with hm hk2
              exact hcond (by rw [hm, hk2]; exact hc))).symm)]
  · intro ser m k h1 h2
    unfold animEmit
    have hres : animResolve ser ("duration", JSVal.jnum m k) =
        JSVal.jstr (jsDivStr1000 m k ++ "s") := by
      unfold animResolve
      exact if_pos ⟨rfl, h1, h2⟩
    rw [hres, if_neg (fun hh => append_s_ne_unset _ (JSVal.jstr.inj hh))]
    have hk : camelToKebab "duration" = "duration" := by decide
    rw [hk]
    have he : ("animation-" ++ "duration" ++ ": " : String) = "animation-duration: " := by
      decide
    show some ("animation-" ++ "duration" ++ ": " ++ (jsDivStr1000 m k ++ "s")) = _
    rw [he]
  · intro ser key
    unfold animEmit
    have hres : animResolve ser (key, JSVal.jstr "unset") = JSVal.jstr "unset" := rfl
    rw [hres, if_pos rfl]
  · intro ser key s hs
    unfold animEmit
    have hres : animResolve ser (key, JSVal.jstr s) = JSVal.jstr s := rfl
    rw [hres, if_neg (fun hh => hs (JSVal.jstr.inj hh))]
    rfl
  · intro ap ser value h3 h4
    unfold transformDeclaration
    rw [if_neg (by decide), if_neg (by decide), if_neg (by simp [h3]),
      if_neg (by simp [h4]), if_neg (by rintro ⟨hc, -⟩; revert hc; decide),
      if_neg (by rintro ⟨hc, -⟩; revert hc; decide), if_pos rfl]

/-- Witness for the amended C6 at a concrete parse result: the general
per-entry emission at a four-field parse, the duration reformat, the unset
omission, the kebab emission, and the wiring conjunct. -/
theorem animation_expansion_behavior_witness :
    expandAnimation serNil "spin 2s"
      (.ok [("name", .jstr "spin"), ("duration", .jnum 2000 0),
            ("fillMode", .jstr "both"), ("delay", .jstr "unset")]) =
      joinSep ";\n  " ([("name", JSVal.jstr "spin"), ("duration", JSVal.jnum 2000 0),
        ("fillMode", JSVal.jstr "both"),
        ("delay", JSVal.jstr "unset")].filterMap (animEmit serNil)) ∧
    animEmit serNil ("duration", .jnum 2000 0) =
      some ("animation-duration: " ++ (jsDivStr1000 2000 0 ++ "s")) ∧
    animEmit serNil ("delay", .jstr "unset") = none ∧
    animEmit serNil ("name", .jstr "spin") =
      some ("animation-" ++ camelToKebab "name" ++ ": " ++ "spin") ∧
    transformDeclaration apFail serNil "animation" "spin 2s" =
      some ("__expanded__", "animation: spin 2s") :=
  ⟨animation_expansion_behavior.2.1 serNil "spin 2s" _ (by decide),
   animation_expansion_behavior.2.2.1 serNil 2000 0 (by decide) (by decide),
   animation_expansion_behavior.2.2.2.1 serNil "delay",
   animation_expansion_behavior.2.2.2.2.1 serNil "name" "spin" (by decide),
   animation_expansion_behavior.2.2.2.2.2 apFail serNil "spin 2s" (by decide) (by decide)⟩

/-! ## Lemmas on the literal-replacement scanner and the selector rewrite -/

theorem replaceGo_step_match (p : Char) (ps rep rest : List Char) :
    replaceGo (p :: ps) rep 0 ((p :: ps) ++ rest) =
      rep ++ replaceGo (p :: ps) rep 0 rest := by
  have hpre : isPrefixL (p :: ps) (p :: (ps ++ rest)) = true := by
    have := isPrefixL_append_self (p :: ps) rest
    simpa [List.cons_append] using this
  rw [List.cons_append, replaceGo, if_pos hpre, replaceGo_skip]
  have : (p :: ps).length - 1 = ps.length := by simp
  rw [this, List.drop_left]

theorem replaceGo_step_nomatch (pat rep : List Char) (c : Char) (cs : List Char)
    (h : isPrefixL pat (c :: cs) = false) :
    replaceGo pat rep 0 (c :: cs) = c :: replaceGo pat rep 0 cs := by
  cases pat with
  | nil => simp [isPrefixL] at h
  | cons p ps => rw [replaceGo, if_neg (by simp [h])]

theorem replaceGo_id_of_no_colon (ps rep cs : List Char)
    (h : cs.all (fun c => !(c = ':')) = true) : replaceGo (':' :: ps) rep 0 cs = cs := by
  induction cs with
  | nil => rfl
  | cons c cs ih =>
    rw [List.all_cons, Bool.and_eq_true] at h
    have hc : ¬(':' = c) := by
      intro hx
      subst hx
      simp at h
    rw [replaceGo_step_nomatch _ _ _ _ (by simp [isPrefixL, hc]), ih h.2]

theorem replaceGo_pass_pre (ps rep pre rest2 : List Char)
    (h : pre.all (fun c => !(c = ':')) = true) :
    replaceGo (':' :: ps) rep 0 (pre ++ rest2) =
      pre ++ replaceGo (':' :: ps) rep 0 rest2 := by
  induction pre with
  | nil => rfl
  | cons c cs ih =>
    rw [List.all_cons, Bool.and_eq_true] at h
    have hc : ¬(':' = c) := by
      intro hx
      subst hx
      simp at h
    rw [List.cons_append,
      replaceGo_step_nomatch _ _ _ _ (by simp [isPrefixL, hc]), ih h.2, List.cons_append]

theorem containsSubL_colon_false (ps cs : List Char)
    (h : cs.all (fun c => !(c = ':')) = true) : containsSubL (':' :: ps) cs = false := by
  induction cs with
  | nil => rfl
  | cons c cs ih =>
    rw [List.all_cons, Bool.and_eq_true] at h
    have hc : ¬(':' = c) := by
      intro hx
      subst hx
      simp at h
    simp [containsSubL, isPrefixL, hc, ih h.2]

theorem whereGo_id_of_no_colon (cs : List Char)
    (h : cs.all (fun c => !(c = ':')) = true) : whereGo 0 cs = cs := by
  induction cs with
  | nil => rfl
  | cons c cs ih =>
    rw [List.all_cons, Bool.and_eq_true] at h
    have hc : ¬(':' = c) := by
      intro hx
      subst hx
      simp at h
    rw [whereGo, if_neg (by simp [wherePat, isPrefixL, hc]), ih h.2]

theorem trimL_id (cs : List Char)
    (hh : ∀ c, cs.head? = some c → isWSChar c = false)
    (hl : ∀ c, cs.getLast? = some c → isWSChar c = false) : trimL cs = cs := by
  cases cs with
  | nil => rfl
  | cons c cs' =>
    have h1 : (c :: cs').dropWhile isWSChar = c :: cs' :=
      List.dropWhile_cons_of_neg (by simp [hh c rfl])
    rw [trimL, h1]
    obtain ⟨r, rs, hr⟩ : ∃ r rs, (c :: cs').reverse = r :: rs := by
      cases hx : (c :: cs').reverse with
      | nil => exact absurd hx (by simp)
      | cons r rs => exact ⟨r, rs, rfl⟩
    have hrl : (c :: cs').getLast? = some r := by
      rw [← List.head?_reverse, hr]
      rfl
    rw [hr, List.dropWhile_cons_of_neg (by simp [hl r hrl]), ← hr, List.reverse_reverse]

/-- A selector containing no colon is left unchanged by every rewrite stage
of transformSelector; only the final trim could act, and it does not when
the ends are not whitespace. -/
theorem transformSelector_id_of_no_colon (u : String)
    (hcolon : u.data.all (fun c => !(c = ':')) = true)
    (hh : ∀ c, u.data.head? = some c → isWSChar c = false)
    (hl : ∀ c, u.data.getLast? = some c → isWSChar c = false) :
    transformSelector u = u := by
  have hs1 : replaceAllS u ":root" rootClasses = u := by
    show (⟨replaceGo (':' :: ['r', 'o', 'o', 't']) rootClasses.data 0 u.data⟩ : String) = u
    rw [replaceGo_id_of_no_colon _ _ _ hcolon]
  have hs2 : replaceAllS u ":host" rootClasses = u := by
    show (⟨replaceGo (':' :: ['h', 'o', 's', 't']) rootClasses.data 0 u.data⟩ : String) = u
    rw [replaceGo_id_of_no_colon _ _ _ hcolon]
  have hs3 : (⟨whereReplaceL u.data⟩ : String) = u := by
    show (⟨whereGo 0 u.data⟩ : String) = u
    rw [whereGo_id_of_no_colon _ hcolon]
  have hs4 : replaceAllS u ":not(:last-child)" "* + *" = u := by
    show (⟨replaceGo (':' :: "not(:last-child)".data) "* + *".data 0 u.data⟩ : String) = u
    rw [replaceGo_id_of_no_colon _ _ _ hcolon]
  have hs5 : replaceAllS u ":not([hidden]) ~ :not([hidden])" "* + *" = u := by
    show (⟨replaceGo (':' :: "not([hidden]) ~ :not([hidden])".data)
      "* + *".data 0 u.data⟩ : String) = u
    rw [replaceGo_id_of_no_colon _ _ _ hcolon]
  have hs6 : containsSubS u "::placeholder" = false := by
    show containsSubL (':' :: ":placeholder".data) u.data = false
    exact containsSubL_colon_false _ _ hcolon
  have htr : trimS u = u := by
    show (⟨trimL u.data⟩ : String) = u
    rw [trimL_id u.data hh hl]
  simp only [transformSelector, hs1, hs2, hs3, hs4, hs5, hs6]
  rw [if_neg (by simp [hs6]), htr]

/-! ## C10: the root and host selector rewrite is a global textual substitution -/

/-- C10: the root and host rewrite inserts the two-item selector list for
every occurrence of the root or host pseudo-class anywhere in the selector
text; trailing compound text therefore attaches only to the second item.
For all colon-free, whitespace-free surrounding text the rewrite yields
exactly the textual substitution, and in particular the selector
root-dot-dark yields the two-item list with dark attached to the second
item only, and multiple occurrences are each replaced. -/
theorem root_host_global_substitution :
    (∀ pre post : String,
      pre.data.all (fun c => !(c = ':') && !isWSChar c) = true →
      post.data.all (fun c => !(c = ':') && !isWSChar c) = true →
      transformSelector (pre ++ ":root" ++ post) = pre ++ rootClasses ++ post ∧
      transformSelector (pre ++ ":host" ++ post) = pre ++ rootClasses ++ post) ∧
    transformSelector ":root :host" = ".ns-root, .ns-modal .ns-root, .ns-modal" ∧
    transformSelector ":root.dark" = ".ns-root, .ns-modal.dark" := by
  refine ⟨?_, by decide, by decide⟩
  intro pre post hpre hpost
  have hpre1 : pre.data.all (fun c => !(c = ':')) = true := by
    rw [List.all_eq_true] at hpre ⊢
    intro x hx
    have := hpre x hx
    rw [Bool.and_eq_true] at this
    exact this.1
  have hpost1 : post.data.all (fun c => !(c = ':')) = true := by
    rw [List.all_eq_true] at hpost ⊢
    intro x hx
    have := hpost x hx
    rw [Bool.and_eq_true] at this
    exact this.1
  have hmidcolon : (pre ++ (rootClasses ++ post)).data.all (fun c => !(c = ':')) = true := by
    show (pre.data ++ (rootClasses.data ++ post.data)).all _ = true
    simp only [List.all_append, Bool.and_eq_true]
    exact ⟨hpre1, by decide, hpost1⟩
  have hh_mid : ∀ c, (pre ++ (rootClasses ++ post)).data.head? = some c →
      isWSChar c = false := by
    intro c hc
    cases hp : pre.data with
    | nil =>
      have : (pre ++ (rootClasses ++ post)).data.head? = some '.' := by
        show (pre.data ++ (rootClasses.data ++ post.data)).head? = some '.'
        rw [hp]
        rfl
      rw [this] at hc
      cases hc
      decide
    | cons p ps =>
      have hhead : (pre ++ (rootClasses ++ post)).data.head? = some p := by
        show (pre.data ++ (rootClasses.data ++ post.data)).head? = some p
        rw [hp]
        rfl
      rw [hhead] at hc
      have hpc : p = c := Option.some.inj hc
      subst hpc
      have hmem : p ∈ pre.data := by
        rw [hp]
        exact List.mem_cons_self p ps
      have := (List.all_eq_true.mp hpre) p hmem
      rw [Bool.and_eq_true] at this
      simpa using this.2
  have hl_mid : ∀ c, (pre ++ (rootClasses ++ post)).data.getLast? = some c →
      isWSChar c = false := by
    intro c hc
    have hc' : (pre.data ++ (rootClasses.data ++ post.data)).getLast? = some c := hc
    cases hp : post.data with
    | nil =>
      rw [hp, List.append_nil] at hc'
      rw [List.getLast?_append_of_ne_nil pre.data (by decide :
        rootClasses.data ≠ [])] at hc'
      have : rootClasses.data.getLast? = some 'l' := by decide
      rw [this] at hc'
      cases hc'
      decide
    | cons q qs =>
      rw [hp, List.getLast?_append_of_ne_nil _ (by simp :
        rootClasses.data ++ q :: qs ≠ []), List.getLast?_append_of_ne_nil _ (by simp :
        q :: qs ≠ [])] at hc'
      have hmem : c ∈ post.data := by
        rw [hp]
        exact List.mem_of_mem_getLast? hc'
      have := (List.all_eq_true.mp hpost) c hmem
      rw [Bool.and_eq_true] at this
      simpa using this.2
  have hid1 : replaceAllS (pre ++ (rootClasses ++ post)) ":root" rootClasses =
      pre ++ (rootClasses ++ post) := by
    show (⟨replaceGo (':' :: ['r', 'o', 'o', 't']) rootClasses.data 0
      (pre ++ (rootClasses ++ post)).data⟩ : String) = _
    rw [replaceGo_id_of_no_colon _ _ _ hmidcolon]
  have hid2 : replaceAllS (pre ++ (rootClasses ++ post)) ":host" rootClasses =
      pre ++ (rootClasses ++ post) := by
    show (⟨replaceGo (':' :: ['h', 'o', 's', 't']) rootClasses.data 0
      (pre ++ (rootClasses ++ post)).data⟩ : String) = _
    rw [replaceGo_id_of_no_colon _ _ _ hmidcolon]
  have hmid_id := transformSelector_id_of_no_colon (pre ++ (rootClasses ++ post))
    hmidcolon hh_mid hl_mid
  constructor
  · -- the root occurrence
    have h1 : replaceAllS (pre ++ ":root" ++ post) ":root" rootClasses =
        pre ++ (rootClasses ++ post) := by
      show (⟨replaceGo (':' :: ['r', 'o', 'o', 't']) rootClasses.data 0
        (pre ++ ":root" ++ post).data⟩ : String) = _
      have hX : (pre ++ ":root" ++ post).data =
          pre.data ++ (([':', 'r', 'o', 'o', 't'] : List Char) ++ post.data) := by
        show (pre.data ++ ":root".data) ++ post.data = _
        rw [List.append_assoc]
      rw [hX, replaceGo_pass_pre _ _ _ _ hpre1, replaceGo_step_match,
        replaceGo_id_of_no_colon _ _ _ hpost1]
      rfl
    have hkey : transformSelector (pre ++ ":root" ++ post) =
        transformSelector (pre ++ (rootClasses ++ post)) := by
      simp only [transformSelector, h1, hid1]
    rw [hkey, hmid_id, ← String.append_assoc]
  · -- the host occurrence
    have g1 : replaceAllS (pre ++ ":host" ++ post) ":root" rootClasses =
        pre ++ ":host" ++ post := by
      show (⟨replaceGo (':' :: ['r', 'o', 'o', 't']) rootClasses.data 0
        (pre ++ ":host" ++ post).data⟩ : String) = _
      have hX : (pre ++ ":host" ++ post).data =
          pre.data ++ (':' :: (['h', 'o', 's', 't'] ++ post.data)) := by
        show (pre.data ++ ":host".data) ++ post.data = _
        rw [List.append_assoc]
        rfl
      rw [hX, replaceGo_pass_pre _ _ _ _ hpre1,
        replaceGo_step_nomatch _ _ _ _ (by simp [isPrefixL]),
        replaceGo_id_of_no_colon _ _ _ (by
          simp only [List.all_append, Bool.and_eq_true]
          exact ⟨by decide, hpost1⟩)]
      rw [← hX]
    have g2 : replaceAllS (pre ++ ":host" ++ post) ":host" rootClasses =
        pre ++ (rootClasses ++ post) := by
      show (⟨replaceGo (':' :: ['h', 'o', 's', 't']) rootClasses.data 0
        (pre ++ ":host" ++ post).data⟩ : String) = _
      have hX : (pre ++ ":host" ++ post).data =
          pre.data ++ (([':', 'h', 'o', 's', 't'] : List Char) ++ post.data) := by
        show (pre.data ++ ":host".data) ++ post.data = _
        rw [List.append_assoc]
      rw [hX, replaceGo_pass_pre _ _ _ _ hpre1, replaceGo_step_match,
        replaceGo_id_of_no_colon _ _ _ hpost1]
      rfl
    have hkey : transformSelector (pre ++ ":host" ++ post) =
        transformSelector (pre ++ (rootClasses ++ post)) := by
      simp only [transformSelector, g1, g2, hid1, hid2]
    rw [hkey, hmid_id, ← String.append_assoc]

/-- Witness for C10: the example from the claim, with compound text
attached after the root pseudo-class. -/
theorem root_host_global_substitution_witness :
    transformSelector ":root.dark" = "" ++ rootClasses ++ ".dark" :=
  ((root_host_global_substitution.1 "" ".dark" (by decide) (by decide)).1)

/-! ## Lemmas on the brace-depth scanner and the parser loop -/

theorem braceScan_append : ∀ (count : Nat) (cs : List Char),
    (braceScan count cs).1 ++ (braceScan count cs).2 = cs := by
  intro count cs
  induction cs generalizing count with
  | nil => rfl
  | cons c cs ih =>
    rw [braceScan]
    by_cases h0 : (if c = '\x7b' then count + 1 else if c = '\x7d' then count - 1
      else count) = 0
    · rw [if_pos h0]
      rfl
    · rw [if_neg h0]
      simpa using ih _

theorem braceScan_snd_length_le (count : Nat) (cs : List Char) :
    (braceScan count cs).2.length ≤ cs.length := by
  have h := braceScan_append count cs
  have := congrArg List.length h
  rw [List.length_append] at this
  omega

theorem braceScan_balanced : ∀ (cs : List Char) (d : Nat) (rest : List Char),
    balFrom d cs = true →
    braceScan (d + 1) (cs ++ '\x7d' :: rest) = (cs ++ ['\x7d'], rest) := by
  intro cs
  induction cs with
  | nil =>
    intro d rest h
    have hd : d = 0 := by simpa [balFrom] using h
    subst hd
    rw [List.nil_append, braceScan]
    simp
  | cons c cs ih =>
    intro d rest h
    rw [List.cons_append, braceScan]
    by_cases hob : c = '\x7b'
    · subst hob
      have hbal : balFrom (d + 1) cs = true := by
        rw [balFrom, if_pos rfl] at h
        exact h
      have hc : (if ('\x7b' : Char) = '\x7b' then d + 1 + 1
          else if ('\x7b' : Char) = '\x7d' then d + 1 - 1 else d + 1) = d + 1 + 1 := by
        simp
      rw [hc, if_neg (by omega), ih (d + 1) rest hbal]
      simp
    · by_cases hcb : c = '\x7d'
      · subst hcb
        rw [balFrom, if_neg (by decide), if_pos rfl, Bool.and_eq_true] at h
        cases d with
        | zero => simp at h
        | succ d' =>
          have hbal : balFrom d' cs = true := by
            have := h.2
            simpa using this
          have hc : (if ('\x7d' : Char) = '\x7b' then d' + 1 + 1 + 1
              else if ('\x7d' : Char) = '\x7d' then d' + 1 + 1 - 1 else d' + 1 + 1) =
              d' + 1 := by
            simp
          rw [hc, if_neg (by omega), ih d' rest hbal]
          simp
      · have hbal : balFrom d cs = true := by
          rw [balFrom, if_neg hob, if_neg hcb] at h
          exact h
        have hc : (if c = '\x7b' then d + 1 + 1
            else if c = '\x7d' then d + 1 - 1 else d + 1) = d + 1 := by
          simp [hob, hcb]
        rw [hc, if_neg (by omega), ih d rest hbal]
        simp

theorem ruleSplit_consumes (cs : List Char) (n : Option CSSNode) (rest : List Char)
    (h : ruleSplit cs = some (n, rest)) : rest.length < cs.length := by
  unfold ruleSplit at h
  cases hdw : cs.dropWhile (fun x => x ≠ '\x7b') with
  | nil =>
    rw [hdw] at h
    exact absurd h (by simp)
  | cons b after =>
    rw [hdw] at h
    have hrest : rest = (braceScan 1 after).2 :=
      (congrArg Prod.snd (Option.some.inj h)).symm
    have h1 : (braceScan 1 after).2.length ≤ after.length := braceScan_snd_length_le _ _
    have h2 : (b :: after).length ≤ cs.length := by
      rw [← hdw]
      exact dropWhile_length_le _ _
    rw [hrest]
    simp only [List.length_cons] at h2
    omega

theorem parseStep1_consumes (cs : List Char) (n : Option CSSNode) (rest : List Char)
    (h : parseStep1 cs = some (n, rest)) : rest.length < cs.length := by
  cases cs with
  | nil => exact absurd h (by simp [parseStep1])
  | cons c cs' =>
    rw [parseStep1] at h
    by_cases hat : c = '@'
    · rw [if_pos hat] at h
      by_cases hname : (cs'.takeWhile isWordChar).isEmpty = true
      · rw [if_pos hname] at h
        exact ruleSplit_consumes _ _ _ h
      · rw [if_neg hname] at h
        split at h
        · rename_i rest2 heq
          have hrest : rest = rest2 := (congrArg Prod.snd (Option.some.inj h)).symm
          have h1 : (';' :: rest2).length ≤ (cs'.dropWhile isWordChar).length := by
            rw [← heq]
            exact dropWhile_length_le _ _
          have h2 : (cs'.dropWhile isWordChar).length ≤ cs'.length :=
            dropWhile_length_le _ _
          rw [hrest]
          simp only [List.length_cons] at h1 ⊢
          omega
        · rename_i rest2 heq
          have hrest : rest = (braceScan 1 rest2).2 :=
            (congrArg Prod.snd (Option.some.inj h)).symm
          have h0 : (braceScan 1 rest2).2.length ≤ rest2.length := braceScan_snd_length_le _ _
          have h1 : ('\x7b' :: rest2).length ≤ (cs'.dropWhile isWordChar).length := by
            rw [← heq]
            exact dropWhile_length_le _ _
          have h2 : (cs'.dropWhile isWordChar).length ≤ cs'.length :=
            dropWhile_length_le _ _
          rw [hrest]
          simp only [List.length_cons] at h1 ⊢
          omega
        · exact ruleSplit_consumes _ _ _ h
    · rw [if_neg hat] at h
      exact ruleSplit_consumes _ _ _ h

theorem parseCSSGo_fuel_eq (n : Nat) : ∀ (cs : List Char), cs.length ≤ n →
    ∀ f₁ f₂, cs.length < f₁ → cs.length < f₂ →
    parseCSSGo f₁ cs = parseCSSGo f₂ cs := by
  induction n with
  | zero =>
    intro cs hlen f₁ f₂ h1 h2
    have hnil : cs = [] := List.length_eq_zero.mp (Nat.le_zero.mp hlen)
    subst hnil
    cases f₁ with
    | zero => omega
    | succ a =>
      cases f₂ with
      | zero => omega
      | succ b => rfl
  | succ n ih =>
    intro cs hlen f₁ f₂ h1 h2
    cases f₁ with
    | zero => omega
    | succ a =>
      cases f₂ with
      | zero => omega
      | succ b =>
        cases hdw : cs.dropWhile isWSChar with
        | nil => simp only [parseCSSGo, hdw]
        | cons c cs2 =>
          simp only [parseCSSGo, hdw]
          rcases Option.eq_none_or_eq_some (parseStep1 (c :: cs2)) with hps | ⟨pr, hps⟩
          · simp only [hps]
          · obtain ⟨nodeOpt, rest⟩ := pr
            have hrl : rest.length < (c :: cs2).length := parseStep1_consumes _ _ _ hps
            have hcs2 : (c :: cs2).length ≤ cs.length := by
              rw [← hdw]
              exact dropWhile_length_le _ _
            simp only [List.length_cons] at hrl hcs2
            simp only [hps]
            exact congrArg _ (ih rest (by omega) a b (by omega) (by omega))

theorem parseCSSGo_isSome (n : Nat) : ∀ (cs : List Char), cs.length ≤ n →
    ∀ f, cs.length < f → (parseCSSGo f cs).isSome = true := by
  induction n with
  | zero =>
    intro cs hlen f h1
    have hnil : cs = [] := List.length_eq_zero.mp (Nat.le_zero.mp hlen)
    subst hnil
    cases f with
    | zero => omega
    | succ a => rfl
  | succ n ih =>
    intro cs hlen f h1
    cases f with
    | zero => omega
    | succ a =>
      cases hdw : cs.dropWhile isWSChar with
      | nil => simp only [parseCSSGo, hdw, Option.isSome_some]
      | cons c cs2 =>
        simp only [parseCSSGo, hdw]
        rcases Option.eq_none_or_eq_some (parseStep1 (c :: cs2)) with hps | ⟨pr, hps⟩
        · simp only [hps, Option.isSome_some]
        · obtain ⟨nodeOpt, rest⟩ := pr
          have hrl : rest.length < (c :: cs2).length := parseStep1_consumes _ _ _ hps
          have hcs2 : (c :: cs2).length ≤ cs.length := by
            rw [← hdw]
            exact dropWhile_length_le _ _
          simp only [List.length_cons] at hrl hcs2
          have hms := ih rest (by omega) a (by omega)
          simp only [hps]
          rcases Option.eq_none_or_eq_some (parseCSSGo a rest) with hr | ⟨ns, hr⟩
          · rw [hr] at hms; simp at hms
          · rw [hr]
            rfl

theorem braceScan_fst_length_le (count : Nat) (cs : List Char) :
    (braceScan count cs).1.length ≤ cs.length := by
  have h := braceScan_append count cs
  have := congrArg List.length h
  rw [List.length_append] at this
  omega

theorem ruleSplit_node_rule (cs : List Char) (node : CSSNode) (rest : List Char)
    (h : ruleSplit cs = some (some node, rest)) :
    ∃ sel bod, node = CSSNode.rule sel bod := by
  unfold ruleSplit at h
  cases hdw : cs.dropWhile (fun x => x ≠ '\x7b') with
  | nil =>
    rw [hdw] at h
    exact absurd h (by simp)
  | cons b after =>
    rw [hdw] at h
    have hfst := congrArg Prod.fst (Option.some.inj h)
    simp only at hfst
    split at hfst
    · exact ⟨_, _, (Option.some.inj hfst).symm⟩
    · exact absurd hfst (by simp)

theorem parseStep1_body_lt (cs : List Char) (node : CSSNode) (rest : List Char)
    (h : parseStep1 cs = some (some node, rest)) :
    ∀ nm p b, node = CSSNode.atRule nm p (some b) → b.data.length < cs.length := by
  intro nm p b hnode
  subst hnode
  cases cs with
  | nil => exact absurd h (by simp [parseStep1])
  | cons c cs' =>
    rw [parseStep1] at h
    have hrule : ∀ (hr : ruleSplit (c :: cs') = some (some (CSSNode.atRule nm p (some b)), rest)),
        False := by
      intro hr
      obtain ⟨sel, bod, hsb⟩ := ruleSplit_node_rule _ _ _ hr
      exact absurd hsb (by simp)
    by_cases hat : c = '@'
    · rw [if_pos hat] at h
      by_cases hname : (cs'.takeWhile isWordChar).isEmpty = true
      · rw [if_pos hname] at h
        exact absurd h (fun hr => hrule hr)
      · rw [if_neg hname] at h
        split at h
        · rename_i rest2 heq
          have hfst := congrArg Prod.fst (Option.some.inj h)
          simp only at hfst
          have hnode := Option.some.inj hfst
          injection hnode with h1 h2 h3
          exact absurd h3 (by simp)
        · rename_i rest2 heq
          have hfst := congrArg Prod.fst (Option.some.inj h)
          simp only at hfst
          have hnode := Option.some.inj hfst
          injection hnode with h1 h2 h3
          have hbdata : b.data = (braceScan 1 rest2).1.dropLast := by
            have hb := Option.some.inj h3
            rw [← hb]
          have h0 : (braceScan 1 rest2).1.dropLast.length ≤ (braceScan 1 rest2).1.length := by
            rw [List.length_dropLast]
            omega
          have h1 : (braceScan 1 rest2).1.length ≤ rest2.length := braceScan_fst_length_le _ _
          have h2 : ('\x7b' :: rest2).length ≤
              ((cs'.dropWhile isWordChar).dropWhile (fun x => x ≠ '\x7b' && x ≠ ';')).length := by
            rw [← heq]
          have h2b : ((cs'.dropWhile isWordChar).dropWhile
              (fun x => x ≠ '\x7b' && x ≠ ';')).length ≤ (cs'.dropWhile isWordChar).length :=
            dropWhile_length_le _ _
          have h3 : (cs'.dropWhile isWordChar).length ≤ cs'.length := dropWhile_length_le _ _
          rw [hbdata]
          simp only [List.length_cons] at h2 ⊢
          omega
        · exact absurd h (fun hr => hrule hr)
    · rw [if_neg hat] at h
      exact absurd h (fun hr => hrule hr)

theorem isSome_map {α β : Type} (f : α → β) (o : Option α) :
    (o.map f).isSome = o.isSome := by
  cases o with
  | none => rfl
  | some a => rfl

theorem parseCSSGo_body_lt (n : Nat) : ∀ (cs : List Char) (f : Nat), cs.length ≤ n →
    cs.length < f → ∀ ns, parseCSSGo f cs = some ns →
    ∀ node ∈ ns, ∀ nm p b, node = CSSNode.atRule nm p (some b) →
    b.data.length < cs.length := by
  induction n with
  | zero =>
    intro cs f hlen h1 ns hns node hmem
    have hnil : cs = [] := List.length_eq_zero.mp (Nat.le_zero.mp hlen)
    subst hnil
    cases f with
    | zero => omega
    | succ a =>
      have : ns = [] := by
        have h0 : parseCSSGo (a + 1) ([] : List Char) = some [] := rfl
        rw [h0] at hns
        exact (Option.some.inj hns).symm
      subst this
      exact absurd hmem (List.not_mem_nil _)
  | succ n ih =>
    intro cs f hlen h1 ns hns node hmem
    cases f with
    | zero => omega
    | succ a =>
      simp only [parseCSSGo] at hns
      cases hdw : cs.dropWhile isWSChar with
      | nil =>
        simp only [hdw] at hns
        have : ns = [] := (Option.some.inj hns).symm
        subst this
        exact absurd hmem (List.not_mem_nil _)
      | cons c cs2 =>
        simp only [hdw] at hns
        rcases Option.eq_none_or_eq_some (parseStep1 (c :: cs2)) with hps | ⟨pr, hps⟩
        · simp only [hps] at hns
          have : ns = [] := (Option.some.inj hns).symm
          subst this
          exact absurd hmem (List.not_mem_nil _)
        · obtain ⟨nodeOpt, rest⟩ := pr
          simp only [hps] at hns
          rw [Option.map_eq_some'] at hns
          obtain ⟨ns0, hns0, hg⟩ := hns
          have hrl : rest.length < (c :: cs2).length := parseStep1_consumes _ _ _ hps
          have hcs2 : (c :: cs2).length ≤ cs.length := by
            rw [← hdw]
            exact dropWhile_length_le _ _
          simp only [List.length_cons] at hrl hcs2
          have hmem0 : node ∈ ns0 → ∀ nm p b, node = CSSNode.atRule nm p (some b) →
              b.data.length < cs.length := by
            intro hm nm p b hb
            have := ih rest a (by omega) (by omega) ns0 hns0 node hm nm p b hb
            omega
          cases nodeOpt with
          | none =>
            simp only at hg
            subst hg
            exact hmem0 hmem
          | some n0 =>
            simp only at hg
            subst hg
            rcases List.mem_cons.mp hmem with hhd | htl
            · subst hhd
              intro nm p b hb
              have := parseStep1_body_lt (c :: cs2) node rest hps nm p b hb
              simp only [List.length_cons] at this
              omega
            · exact hmem0 htl

theorem goNodes_congr (ap : String → Except Unit (List (String × JSVal)))
    (ser : String → JSVal → String) (rec₁ rec₂ : String → Option String) :
    ∀ ns : List CSSNode,
    (∀ nm p b, CSSNode.atRule nm p (some b) ∈ ns → rec₁ b = rec₂ b) →
    goNodes ap ser rec₁ ns = goNodes ap ser rec₂ ns := by
  intro ns
  induction ns with
  | nil => intro _; rfl
  | cons node ns ih =>
    intro h
    have ihns : goNodes ap ser rec₁ ns = goNodes ap ser rec₂ ns :=
      ih (fun nm p b hb => h nm p b (List.mem_cons_of_mem _ hb))
    cases node with
    | atRule name params body =>
      simp only [goNodes]
      by_cases hl : name = "layer"
      · simp only [if_pos hl]
        cases body with
        | none => exact ihns
        | some b =>
          by_cases hb : b ≠ ""
          · simp only [if_pos hb]
            have hr : rec₁ b = rec₂ b := h name params b (by rw [hl]; exact List.mem_cons_self _ _)
            rw [hr]
            rcases Option.eq_none_or_eq_some (rec₂ b) with hrec | ⟨s, hrec⟩
            · simp only [hrec]
            · simp only [hrec]
              rw [ihns]
          · simp only [if_neg hb]
            exact ihns
      · simp only [if_neg hl]
        by_cases hk : name = "keyframes"
        · simp only [if_pos hk]
          rw [ihns]
        · simp only [if_neg hk]
          exact ihns
    | rule sel body =>
      simp only [goNodes]
      by_cases hc1 : containsSubS sel "&" = true
      · simp only [if_pos hc1]
        exact ihns
      · simp only [if_neg hc1]
        by_cases hc2 : (!isSupportedSelector sel) = true
        · simp only [if_pos hc2]
          exact ihns
        · simp only [if_neg hc2]
          by_cases hc3 : transformSelector sel = ""
          · simp only [if_pos hc3]
            exact ihns
          · simp only [if_neg hc3]
            rcases hfm : (parseDeclarations body).filterMap (fun d =>
                match transformDeclaration ap ser
                    (if containsSubS sel "::placeholder" ∧ d.1 = "color" then "placeholder-color"
                     else d.1) d.2 with
                | none => none
                | some td =>
                  some (if td.1 = "__expanded__" then td.2 else td.1 ++ ": " ++ td.2)) with
              _ | ⟨d, ds⟩
            · simp only [hfm]
              exact ihns
            · simp only [hfm]
              rw [ihns]

theorem goNodes_isSome (ap : String → Except Unit (List (String × JSVal)))
    (ser : String → JSVal → String) (rec : String → Option String) :
    ∀ ns : List CSSNode,
    (∀ nm p b, CSSNode.atRule nm p (some b) ∈ ns → (rec b).isSome = true) →
    (goNodes ap ser rec ns).isSome = true := by
  intro ns
  induction ns with
  | nil => intro _; rfl
  | cons node ns ih =>
    intro h
    have ihns : (goNodes ap ser rec ns).isSome = true :=
      ih (fun nm p b hb => h nm p b (List.mem_cons_of_mem _ hb))
    cases node with
    | atRule name params body =>
      simp only [goNodes]
      by_cases hl : name = "layer"
      · simp only [if_pos hl]
        cases body with
        | none => exact ihns
        | some b =>
          by_cases hb : b ≠ ""
          · simp only [if_pos hb]
            have hr : (rec b).isSome = true :=
              h name params b (by rw [hl]; exact List.mem_cons_self _ _)
            rcases Option.eq_none_or_eq_some (rec b) with hrec | ⟨s, hrec⟩
            · rw [hrec] at hr
              exact absurd hr (by simp)
            · simp only [hrec]
              rw [isSome_map]
              exact ihns
          · simp only [if_neg hb]
            exact ihns
      · simp only [if_neg hl]
        by_cases hk : name = "keyframes"
        · simp only [if_pos hk]
          rw [isSome_map]
          exact ihns
        · simp only [if_neg hk]
          exact ihns
    | rule sel body =>
      simp only [goNodes]
      by_cases hc1 : containsSubS sel "&" = true
      · simp only [if_pos hc1]
        exact ihns
      · simp only [if_neg hc1]
        by_cases hc2 : (!isSupportedSelector sel) = true
        · simp only [if_pos hc2]
          exact ihns
        · simp only [if_neg hc2]
          by_cases hc3 : transformSelector sel = ""
          · simp only [if_pos hc3]
            exact ihns
          · simp only [if_neg hc3]
            rcases hfm : (parseDeclarations body).filterMap (fun d =>
                match transformDeclaration ap ser
                    (if containsSubS sel "::placeholder" ∧ d.1 = "color" then "placeholder-color"
                     else d.1) d.2 with
                | none => none
                | some td =>
                  some (if td.1 = "__expanded__" then td.2 else td.1 ++ ": " ++ td.2)) with
              _ | ⟨d, ds⟩
            · simp only [hfm]
              exact ihns
            · simp only [hfm]
              rw [isSome_map]
              exact ihns

theorem parseCSS_body_lt (css : String) :
    ∀ node ∈ parseCSS css, ∀ nm p b, node = CSSNode.atRule nm p (some b) →
    b.data.length < css.data.length := by
  intro node hmem nm p b hb
  have hsome : (parseCSSGo (css.data.length + 1) css.data).isSome = true :=
    parseCSSGo_isSome css.data.length css.data (Nat.le_refl _) _ (Nat.lt_succ_self _)
  obtain ⟨ns, hns⟩ := Option.isSome_iff_exists.mp hsome
  have hpc : parseCSS css = ns := by
    unfold parseCSS
    rw [hns]
    rfl
  rw [hpc] at hmem
  exact parseCSSGo_body_lt css.data.length css.data (css.data.length + 1) (Nat.le_refl _)
    (Nat.lt_succ_self _) ns hns node hmem nm p b hb

theorem transformGo_fuel_eq (ap : String → Except Unit (List (String × JSVal)))
    (ser : String → JSVal → String) (n : Nat) : ∀ (css : String), css.data.length ≤ n →
    ∀ f₁ f₂, css.data.length < f₁ → css.data.length < f₂ →
    transformGo ap ser f₁ css = transformGo ap ser f₂ css := by
  induction n with
  | zero =>
    intro css hlen f₁ f₂ h1 h2
    cases f₁ with
    | zero => omega
    | succ a =>
      cases f₂ with
      | zero => omega
      | succ b =>
        simp only [transformGo]
        have hbound := parseCSS_body_lt css
        have : ∀ nm p bd, CSSNode.atRule nm p (some bd) ∈ parseCSS css →
            (fun x => transformGo ap ser a x) bd = (fun x => transformGo ap ser b x) bd := by
          intro nm p bd hmem
          have := hbound _ hmem nm p bd rfl
          omega
        rw [goNodes_congr ap ser _ _ (parseCSS css) this]
  | succ n ih =>
    intro css hlen f₁ f₂ h1 h2
    cases f₁ with
    | zero => omega
    | succ a =>
      cases f₂ with
      | zero => omega
      | succ b =>
        simp only [transformGo]
        have hbound := parseCSS_body_lt css
        have : ∀ nm p bd, CSSNode.atRule nm p (some bd) ∈ parseCSS css →
            (fun x => transformGo ap ser a x) bd = (fun x => transformGo ap ser b x) bd := by
          intro nm p bd hmem
          have hblt := hbound _ hmem nm p bd rfl
          exact ih bd (by omega) a b (by omega) (by omega)
        rw [goNodes_congr ap ser _ _ (parseCSS css) this]

theorem transformGo_isSome (ap : String → Except Unit (List (String × JSVal)))
    (ser : String → JSVal → String) (n : Nat) : ∀ (css : String), css.data.length ≤ n →
    ∀ f, css.data.length < f → (transformGo ap ser f css).isSome = true := by
  induction n with
  | zero =>
    intro css hlen f h1
    cases f with
    | zero => omega
    | succ a =>
      simp only [transformGo]
      rw [isSome_map]
      apply goNodes_isSome
      intro nm p bd hmem
      have := parseCSS_body_lt css _ hmem nm p bd rfl
      omega
  | succ n ih =>
    intro css hlen f h1
    cases f with
    | zero => omega
    | succ a =>
      simp only [transformGo]
      rw [isSome_map]
      apply goNodes_isSome
      intro nm p bd hmem
      have hblt := parseCSS_body_lt css _ hmem nm p bd rfl
      exact ih bd (by omega) a (by omega)

theorem takeWhile_append_all (p : Char → Bool) (l₁ l₂ : List Char) (h : l₁.all p = true) :
    (l₁ ++ l₂).takeWhile p = l₁ ++ l₂.takeWhile p := by
  induction l₁ with
  | nil => rfl
  | cons c cs ih =>
    rw [List.all_cons, Bool.and_eq_true] at h
    simp only [List.cons_append, List.takeWhile_cons_of_pos h.1, ih h.2]

theorem dropWhile_append_all (p : Char → Bool) (l₁ l₂ : List Char) (h : l₁.all p = true) :
    (l₁ ++ l₂).dropWhile p = l₂.dropWhile p := by
  induction l₁ with
  | nil => rfl
  | cons c cs ih =>
    rw [List.all_cons, Bool.and_eq_true] at h
    simp only [List.cons_append, List.dropWhile_cons_of_pos h.1, ih h.2]

theorem trimL_cons_ws (c : Char) (l : List Char) (h : isWSChar c = true) :
    trimL (c :: l) = trimL l := by
  unfold trimL
  rw [List.dropWhile_cons_of_pos h]

theorem isPrefixL_mem (pat l : List Char) (h : isPrefixL pat l = true) :
    ∀ c ∈ pat, c ∈ l := by
  induction pat generalizing l with
  | nil => intro c hc; exact absurd hc (List.not_mem_nil _)
  | cons p ps ih =>
    cases l with
    | nil => exact absurd h (by simp [isPrefixL])
    | cons x xs =>
      rw [isPrefixL, Bool.and_eq_true] at h
      intro c hc
      rcases List.mem_cons.mp hc with hh | ht
      · have hpx : p = x := by simpa using h.1
        rw [hh, hpx]
        exact List.mem_cons_self _ _
      · exact List.mem_cons_of_mem _ (ih xs h.2 c ht)

theorem containsSubL_mem (pat l : List Char) (h : containsSubL pat l = true) :
    ∀ c ∈ pat, c ∈ l := by
  induction l with
  | nil =>
    intro c hc
    cases pat with
    | nil => exact absurd hc (List.not_mem_nil _)
    | cons p ps => exact absurd h (by simp [containsSubL, isPrefixL])
  | cons x xs ih =>
    rw [containsSubL, Bool.or_eq_true] at h
    intro c hc
    rcases h with hp | hs
    · exact isPrefixL_mem _ _ hp c hc
    · exact List.mem_cons_of_mem _ (ih hs c hc)

theorem containsSubL_false_of_not_mem (pat l : List Char) (c : Char)
    (hc : c ∈ pat) (hl : c ∉ l) : containsSubL pat l = false := by
  by_cases h : containsSubL pat l = true
  · exact absurd (containsSubL_mem _ _ h c hc) hl
  · exact Bool.eq_false_iff.mpr h

theorem parseCSSGo_nil_pos (f : Nat) (h : 0 < f) : parseCSSGo f [] = some [] := by
  cases f with
  | zero => omega
  | succ a => rfl

theorem balFrom_no_brace (l : List Char) :
    l.all (fun c => c ≠ '\x7b' && c ≠ '\x7d') = true → balFrom 0 l = true := by
  induction l with
  | nil => intro _; rfl
  | cons c cs ih =>
    intro h
    rw [List.all_cons, Bool.and_eq_true] at h
    rw [Bool.and_eq_true] at h
    have h1 : ¬(c = '\x7b') := by simpa using h.1.1
    have h2 : ¬(c = '\x7d') := by simpa using h.1.2
    rw [balFrom, if_neg h1, if_neg h2]
    exact ih h.2

theorem parseStep1_at_block (name params inner : String)
    (hn1 : name.data ≠ [])
    (hn2 : name.data.all isWordChar = true)
    (hp : params.data.all (fun x => x ≠ '\x7b' && x ≠ ';') = true)
    (hbal : balFrom 0 inner.data = true) :
    parseStep1 ('@' :: (name.data ++ ' ' ::
        (params.data ++ '\x7b' :: (inner.data ++ ['\x7d'])))) =
      some (some (CSSNode.atRule name (trimS params) (some inner)), []) := by
  have htw : (name.data ++ ' ' ::
      (params.data ++ '\x7b' :: (inner.data ++ ['\x7d']))).takeWhile isWordChar =
      name.data := by
    rw [takeWhile_append_all _ _ _ hn2, List.takeWhile_cons_of_neg (by decide)]
    simp
  have hdw : (name.data ++ ' ' ::
      (params.data ++ '\x7b' :: (inner.data ++ ['\x7d']))).dropWhile isWordChar =
      ' ' :: (params.data ++ '\x7b' :: (inner.data ++ ['\x7d'])) := by
    rw [dropWhile_append_all _ _ _ hn2, List.dropWhile_cons_of_neg (by decide)]
  have htk : (' ' :: (params.data ++ '\x7b' :: (inner.data ++ ['\x7d']))).takeWhile
      (fun x => x ≠ '\x7b' && x ≠ ';') = ' ' :: params.data := by
    rw [List.takeWhile_cons_of_pos (by decide), takeWhile_append_all _ _ _ hp,
      List.takeWhile_cons_of_neg (by decide)]
    simp
  have hdk : (' ' :: (params.data ++ '\x7b' :: (inner.data ++ ['\x7d']))).dropWhile
      (fun x => x ≠ '\x7b' && x ≠ ';') = '\x7b' :: (inner.data ++ ['\x7d']) := by
    rw [List.dropWhile_cons_of_pos (by decide), dropWhile_append_all _ _ _ hp,
      List.dropWhile_cons_of_neg (by decide)]
  have hbs : braceScan 1 (inner.data ++ ['\x7d']) = (inner.data ++ ['\x7d'], []) :=
    braceScan_balanced inner.data 0 [] hbal
  have hne : ¬(((name.data ++ ' ' ::
      (params.data ++ '\x7b' :: (inner.data ++ ['\x7d']))).takeWhile isWordChar).isEmpty
        = true) := by
    rw [htw]
    cases hn : name.data with
    | nil => exact absurd hn hn1
    | cons a as => simp
  rw [parseStep1, if_pos rfl, if_neg hne]
  rw [hdw, List.dropWhile_cons_of_pos (by decide), dropWhile_append_all _ _ _ hp,
    List.dropWhile_cons_of_neg (by decide)]
  have hmk : (⟨name.data⟩ : String) = name := mk_data name
  have htrim : trimS ⟨' ' :: params.data⟩ = trimS params := by
    show (⟨trimL (' ' :: params.data)⟩ : String) = ⟨trimL params.data⟩
    rw [trimL_cons_ws _ _ (by decide)]
  simp only [htw, hmk, hdw, List.dropWhile_cons_of_pos (show ((' ' : Char) ≠ '\x7b' &&
    (' ' : Char) ≠ ';') = true by decide), List.takeWhile_cons_of_pos (show ((' ' : Char)
    ≠ '\x7b' && (' ' : Char) ≠ ';') = true by decide), takeWhile_append_all _ _ _ hp,
    dropWhile_append_all _ _ _ hp, List.takeWhile_cons_of_neg (show ¬((('\x7b' : Char)
    ≠ '\x7b' && ('\x7b' : Char) ≠ ';') = true) by decide), List.dropWhile_cons_of_neg
    (show ¬((('\x7b' : Char) ≠ '\x7b' && ('\x7b' : Char) ≠ ';') = true) by decide),
    List.append_nil, htrim, hbs, List.dropLast_concat, mk_data]
  rw [htk, htrim]

theorem parseStep1_at_semi (name params : String)
    (hn1 : name.data ≠ [])
    (hn2 : name.data.all isWordChar = true)
    (hp : params.data.all (fun x => x ≠ '\x7b' && x ≠ ';') = true) :
    parseStep1 ('@' :: (name.data ++ ' ' :: (params.data ++ [';']))) =
      some (some (CSSNode.atRule name (trimS params) none), []) := by
  have htw : (name.data ++ ' ' :: (params.data ++ [';'])).takeWhile isWordChar =
      name.data := by
    rw [takeWhile_append_all _ _ _ hn2, List.takeWhile_cons_of_neg (by decide)]
    simp
  have hdw : (name.data ++ ' ' :: (params.data ++ [';'])).dropWhile isWordChar =
      ' ' :: (params.data ++ [';']) := by
    rw [dropWhile_append_all _ _ _ hn2, List.dropWhile_cons_of_neg (by decide)]
  have htk : (' ' :: (params.data ++ [';'])).takeWhile
      (fun x => x ≠ '\x7b' && x ≠ ';') = ' ' :: params.data := by
    rw [List.takeWhile_cons_of_pos (by decide), takeWhile_append_all _ _ _ hp,
      List.takeWhile_cons_of_neg (by decide)]
    simp
  have hdk : (' ' :: (params.data ++ [';'])).dropWhile
      (fun x => x ≠ '\x7b' && x ≠ ';') = [';'] := by
    rw [List.dropWhile_cons_of_pos (by decide), dropWhile_append_all _ _ _ hp,
      List.dropWhile_cons_of_neg (by decide)]
  have hne : ¬(((name.data ++ ' ' :: (params.data ++ [';'])).takeWhile
      isWordChar).isEmpty = true) := by
    rw [htw]
    cases hn : name.data with
    | nil => exact absurd hn hn1
    | cons a as => simp
  have hmk : (⟨name.data⟩ : String) = name := mk_data name
  have htrim : trimS ⟨' ' :: params.data⟩ = trimS params := by
    show (⟨trimL (' ' :: params.data)⟩ : String) = ⟨trimL params.data⟩
    rw [trimL_cons_ws _ _ (by decide)]
  rw [parseStep1, if_pos rfl, if_neg hne]
  rw [hdw]
  simp only [hdk, htw, hmk]
  rw [htk, htrim]

theorem parseStep1_rule_shape (selp inner : List Char)
    (hne : selp ≠ [])
    (hat : selp.head? ≠ some '@')
    (hbrace : selp.all (fun x => x ≠ '\x7b') = true)
    (hbal : balFrom 0 inner = true)
    (hsel : trimS ⟨selp⟩ ≠ "")
    (hbody : trimS ⟨inner⟩ ≠ "") :
    parseStep1 (selp ++ '\x7b' :: (inner ++ ['\x7d'])) =
      some (some (CSSNode.rule (trimS ⟨selp⟩) (trimS ⟨inner⟩)), []) := by
  cases selp with
  | nil => exact absurd rfl hne
  | cons c0 srest =>
    have hat' : ¬(c0 = '@') := by
      intro h
      exact hat (by rw [h]; rfl)
    have hdwX : (c0 :: (srest ++ '\x7b' :: (inner ++ ['\x7d']))).dropWhile
        (fun x => x ≠ '\x7b') = '\x7b' :: (inner ++ ['\x7d']) := by
      show ((c0 :: srest) ++ '\x7b' :: (inner ++ ['\x7d'])).dropWhile
        (fun x => x ≠ '\x7b') = '\x7b' :: (inner ++ ['\x7d'])
      rw [dropWhile_append_all _ _ _ hbrace, List.dropWhile_cons_of_neg (by decide)]
    have htkX : (c0 :: (srest ++ '\x7b' :: (inner ++ ['\x7d']))).takeWhile
        (fun x => x ≠ '\x7b') = c0 :: srest := by
      show ((c0 :: srest) ++ '\x7b' :: (inner ++ ['\x7d'])).takeWhile
        (fun x => x ≠ '\x7b') = c0 :: srest
      rw [takeWhile_append_all _ _ _ hbrace, List.takeWhile_cons_of_neg (by decide)]
      simp
    have hbs : braceScan 1 (inner ++ ['\x7d']) = (inner ++ ['\x7d'], []) :=
      braceScan_balanced inner 0 [] hbal
    rw [List.cons_append, parseStep1, if_neg hat']
    rw [ruleSplit]
    simp only [hdwX, htkX, hbs, List.dropLast_concat]
    rw [if_pos ⟨hsel, hbody⟩]

theorem parseCSS_single (c : Char) (rest : List Char)
    (hws : isWSChar c = false) (node : CSSNode)
    (hstep : parseStep1 (c :: rest) = some (some node, [])) :
    parseCSS ⟨c :: rest⟩ = [node] := by
  unfold parseCSS
  show (parseCSSGo ((c :: rest).length + 1) (c :: rest)).getD [] = [node]
  simp only [List.length_cons]
  simp only [parseCSSGo, List.dropWhile_cons_of_neg
    (show ¬(isWSChar c = true) by simp [hws]), hstep]
  rfl

theorem transformGo_eq_main (ap : String → Except Unit (List (String × JSVal)))
    (ser : String → JSVal → String) (f : Nat) (css : String)
    (h : css.data.length < f) :
    transformGo ap ser f css = some (transformNativeScriptCSS ap ser css) := by
  have he : transformGo ap ser f css = transformGo ap ser (css.data.length + 1) css :=
    transformGo_fuel_eq ap ser css.data.length css (Nat.le_refl _) f _ h (Nat.lt_succ_self _)
  have hs : (transformGo ap ser (css.data.length + 1) css).isSome = true :=
    transformGo_isSome ap ser css.data.length css (Nat.le_refl _) _ (Nat.lt_succ_self _)
  obtain ⟨v, hv⟩ := Option.isSome_iff_exists.mp hs
  rw [he, hv]
  unfold transformNativeScriptCSS
  rw [hv]
  rfl

theorem parseCSS_at_block (name params inner : String)
    (hn1 : name.data ≠ [])
    (hn2 : name.data.all isWordChar = true)
    (hp : params.data.all (fun x => x ≠ '\x7b' && x ≠ ';') = true)
    (hbal : balFrom 0 inner.data = true) :
    parseCSS ("@" ++ name ++ " " ++ params ++ "\x7b" ++ inner ++ "\x7d") =
      [CSSNode.atRule name (trimS params) (some inner)] := by
  have hdata : ("@" ++ name ++ " " ++ params ++ "\x7b" ++ inner ++ "\x7d").data =
      '@' :: (name.data ++ ' ' :: (params.data ++ '\x7b' :: (inner.data ++ ['\x7d']))) := by
    simp only [data_append, List.append_assoc]
    rfl
  have hS : ("@" ++ name ++ " " ++ params ++ "\x7b" ++ inner ++ "\x7d" : String) =
      ⟨'@' :: (name.data ++ ' ' :: (params.data ++ '\x7b' :: (inner.data ++ ['\x7d'])))⟩ := by
    rw [← hdata]
  rw [hS]
  exact parseCSS_single '@' _ (by decide) _
    (parseStep1_at_block name params inner hn1 hn2 hp hbal)

theorem parseCSS_at_semi (name params : String)
    (hn1 : name.data ≠ [])
    (hn2 : name.data.all isWordChar = true)
    (hp : params.data.all (fun x => x ≠ '\x7b' && x ≠ ';') = true) :
    parseCSS ("@" ++ name ++ " " ++ params ++ ";") =
      [CSSNode.atRule name (trimS params) none] := by
  have hdata : ("@" ++ name ++ " " ++ params ++ ";").data =
      '@' :: (name.data ++ ' ' :: (params.data ++ [';'])) := by
    simp only [data_append, List.append_assoc]
    rfl
  have hS : ("@" ++ name ++ " " ++ params ++ ";" : String) =
      ⟨'@' :: (name.data ++ ' ' :: (params.data ++ [';']))⟩ := by
    rw [← hdata]
  rw [hS]
  exact parseCSS_single '@' _ (by decide) _ (parseStep1_at_semi name params hn1 hn2 hp)

theorem transform_of_parse (ap : String → Except Unit (List (String × JSVal)))
    (ser : String → JSVal → String) (css : String) (nodes : List CSSNode)
    (h : parseCSS css = nodes) :
    transformNativeScriptCSS ap ser css =
      ((goNodes ap ser (fun b => transformGo ap ser css.data.length b) nodes).map
        (fun outs => joinSep "\n\n" outs)).getD "" := by
  unfold transformNativeScriptCSS
  simp only [transformGo, h]

theorem trimL_sandwich (w₁ l w₂ : List Char)
    (hw₁ : w₁.all isWSChar = true) (hw₂ : w₂.all isWSChar = true)
    (hh : ∀ c, l.head? = some c → isWSChar c = false)
    (hl : ∀ c, l.getLast? = some c → isWSChar c = false) :
    trimL (w₁ ++ l ++ w₂) = l := by
  rw [List.append_assoc]
  unfold trimL
  rw [dropWhile_append_all _ _ _ hw₁]
  cases hl0 : l with
  | nil =>
    subst hl0
    rw [List.nil_append, dropWhile_eq_nil_of_all _ _ hw₂]
    rfl
  | cons c0 l0 =>
    subst hl0
    rw [List.cons_append, List.dropWhile_cons_of_neg (by simp [hh c0 rfl])]
    rw [show c0 :: (l0 ++ w₂) = (c0 :: l0) ++ w₂ from rfl, List.reverse_append]
    rw [dropWhile_append_all _ _ _ (by rw [List.all_reverse]; exact hw₂)]
    obtain ⟨r, rs, hr⟩ : ∃ r rs, (c0 :: l0).reverse = r :: rs := by
      cases hx : (c0 :: l0).reverse with
      | nil => exact absurd hx (by simp)
      | cons r rs => exact ⟨r, rs, rfl⟩
    have hrl : (c0 :: l0).getLast? = some r := by
      rw [← List.head?_reverse, hr]
      rfl
    rw [hr, List.dropWhile_cons_of_neg (by simp [hl r hrl]), ← hr, List.reverse_reverse]

theorem splitChar_sep_free (sep : Char) (l : List Char)
    (h : l.all (fun c => c ≠ sep) = true) :
    splitChar sep (l ++ [sep]) = [l, []] := by
  induction l with
  | nil =>
    show splitChar sep [sep] = [[], []]
    rw [splitChar]
    simp [splitChar]
  | cons c cs ih =>
    rw [List.all_cons, Bool.and_eq_true] at h
    have hc : ¬(c = sep) := by simpa using h.1
    rw [List.cons_append, splitChar, ih h.2]
    show (if c = sep then [[], cs, []] else [c :: cs, []]) = [c :: cs, []]
    rw [if_neg hc]

theorem mk_ne_empty (l : List Char) (h : l ≠ []) : (⟨l⟩ : String) ≠ "" :=
  fun he => h (congrArg String.data he)

theorem parseCSS_of_step (cs : List Char) (node : CSSNode)
    (hdw : cs.dropWhile isWSChar = cs)
    (hne : cs ≠ [])
    (hstep : parseStep1 cs = some (some node, [])) :
    parseCSS ⟨cs⟩ = [node] := by
  cases hcs : cs with
  | nil => exact absurd hcs hne
  | cons c rest =>
    subst hcs
    unfold parseCSS
    show (parseCSSGo ((c :: rest).length + 1) (c :: rest)).getD [] = [node]
    simp only [List.length_cons, parseCSSGo, hdw, hstep]
    rfl

theorem parseDeclarations_single (p v : String)
    (hp0 : p.data ≠ [])
    (hpnws : ∀ c ∈ p.data, isWSChar c = false)
    (hpcolon : ∀ c ∈ p.data, c ≠ ':')
    (hpsemi : ∀ c ∈ p.data, c ≠ ';')
    (hv0 : v.data ≠ [])
    (hvsemi : ∀ c ∈ v.data, c ≠ ';')
    (hvh : ∀ c, v.data.head? = some c → isWSChar c = false)
    (hvl : ∀ c, v.data.getLast? = some c → isWSChar c = false) :
    parseDeclarations ⟨p.data ++ ':' :: ' ' :: (v.data ++ [';'])⟩ = [(p, v)] := by
  have hLeq : p.data ++ ':' :: ' ' :: (v.data ++ [';']) =
      (p.data ++ ':' :: ' ' :: v.data) ++ [';'] := by
    simp [List.append_assoc]
  have hLfree : (p.data ++ ':' :: ' ' :: v.data).all (fun c => c ≠ ';') = true := by
    rw [List.all_append, Bool.and_eq_true]
    refine ⟨?_, ?_⟩
    · exact List.all_eq_true.mpr (fun c hc => by simp [hpsemi c hc])
    · simp only [List.all_cons, Bool.and_eq_true]
      exact ⟨by decide, by decide, List.all_eq_true.mpr (fun c hc => by simp [hvsemi c hc])⟩
  have hsplit : splitChar ';' (p.data ++ ':' :: ' ' :: (v.data ++ [';'])) =
      [p.data ++ ':' :: ' ' :: v.data, []] := by
    rw [hLeq]
    exact splitChar_sep_free ';' _ hLfree
  have hLh : ∀ c, (p.data ++ ':' :: ' ' :: v.data).head? = some c → isWSChar c = false := by
    intro c hc
    cases hpd : p.data with
    | nil => exact absurd hpd hp0
    | cons p0 ps =>
      rw [hpd, List.cons_append] at hc
      have hcp : p0 = c := by simpa using hc
      subst hcp
      exact hpnws p0 (by rw [hpd]; exact List.mem_cons_self _ _)
  have hLl : ∀ c, (p.data ++ ':' :: ' ' :: v.data).getLast? = some c →
      isWSChar c = false := by
    intro c hc
    cases hvd : v.data with
    | nil => exact absurd hvd hv0
    | cons v0 vs =>
      obtain ⟨a, ha⟩ : ∃ a, (v0 :: vs).getLast? = some a := by
        cases hx : (v0 :: vs).getLast? with
        | none => exact absurd hx (by simp)
        | some a => exact ⟨a, rfl⟩
      have hlast : (p.data ++ ':' :: ' ' :: v.data).getLast? = v.data.getLast? := by
        rw [hvd]
        rw [show p.data ++ ':' :: ' ' :: (v0 :: vs) =
          (p.data ++ [':', ' ']) ++ v0 :: vs from by simp]
        rw [List.getLast?_append, ha]
        rfl
      rw [hlast] at hc
      exact hvl c hc
  have htrimL : trimL (p.data ++ ':' :: ' ' :: v.data) =
      p.data ++ ':' :: ' ' :: v.data := trimL_id _ hLh hLl
  have hLne : p.data ++ ':' :: ' ' :: v.data ≠ [] := by simp
  have hdrop : (p.data ++ ':' :: ' ' :: v.data).dropWhile (fun c => c ≠ ':') =
      ':' :: ' ' :: v.data := by
    rw [dropWhile_append_all _ _ _ (List.all_eq_true.mpr
      (fun c hc => by simp [hpcolon c hc]))]
    rw [List.dropWhile_cons_of_neg (by decide)]
  have htake : (p.data ++ ':' :: ' ' :: v.data).takeWhile (fun c => c ≠ ':') =
      p.data := by
    rw [takeWhile_append_all _ _ _ (List.all_eq_true.mpr
      (fun c hc => by simp [hpcolon c hc]))]
    rw [List.takeWhile_cons_of_neg (by decide)]
    simp
  have hph : ∀ c, p.data.head? = some c → isWSChar c = false := by
    intro c hc
    cases hpd : p.data with
    | nil => rw [hpd] at hc; exact absurd hc (by simp)
    | cons p0 ps =>
      rw [hpd] at hc
      have hcp : p0 = c := by simpa using hc
      subst hcp
      exact hpnws p0 (by rw [hpd]; exact List.mem_cons_self _ _)
  have hpl : ∀ c, p.data.getLast? = some c → isWSChar c = false :=
    fun c hc => hpnws c (List.mem_of_getLast?_eq_some hc)
  have htp : trimS ⟨p.data⟩ = p := by
    show (⟨trimL p.data⟩ : String) = p
    rw [trimL_id _ hph hpl]
  have htv : trimS ⟨' ' :: v.data⟩ = v := by
    show (⟨trimL (' ' :: v.data)⟩ : String) = v
    rw [trimL_cons_ws _ _ (by decide), trimL_id _ hvh hvl]
  have hpne : p ≠ "" := fun h => hp0 (congrArg String.data h)
  have hvne : v ≠ "" := fun h => hv0 (congrArg String.data h)
  have hLisE : (p.data ++ ':' :: ' ' :: v.data).isEmpty = false := by
    cases hpd : p.data with
    | nil => exact absurd hpd hp0
    | cons a as => rfl
  unfold parseDeclarations
  show ((splitChar ';' (p.data ++ ':' :: ' ' :: (v.data ++ [';']))).filterMap _) = [(p, v)]
  rw [hsplit, List.filterMap_cons, List.filterMap_cons, List.filterMap_nil]
  simp only [htrimL, hdrop, htake, htp, htv, hLisE]
  rw [if_neg (show ¬(false = true) by simp)]
  rw [if_pos ⟨hpne, hvne⟩]
  rfl

theorem transformDeclaration_keep (ap : String → Except Unit (List (String × JSVal)))
    (ser : String → JSVal → String) (p v : String)
    (hsw : startsWithS "--" p = false)
    (htw2 : twReversePatterns.any (fun pat => containsSubS p pat) = false)
    (hcm : containsSubS v "color-mix" = false)
    (hcc : containsSubS v "currentColor" = false)
    (hvis : ¬(p = "visibility" ∧ v = "hidden"))
    (hva : ¬(p = "vertical-align" ∧ v = "middle"))
    (hanim : ¬(p = "animation"))
    (hlook : lookupProp p = some SupportRule.always)
    (hvne : ¬(v = ""))
    (huv : unsupportedValues.any (fun u => endsWithS u v) = false)
    (htv : transformValue v = v) :
    transformDeclaration ap ser p v = some (p, v) := by
  have h1 : twSkipVars.any (fun varName => startsWithS ("--" ++ varName) p) = false := by
    by_cases hany : twSkipVars.any (fun varName => startsWithS ("--" ++ varName) p) = true
    · exfalso
      rw [List.any_eq_true] at hany
      obtain ⟨var, hmem, hpre⟩ := hany
      have : startsWithS "--" p = true := by
        unfold startsWithS at hpre ⊢
        rw [data_append] at hpre
        exact isPrefixL_of_append_left _ _ _ hpre
      rw [this] at hsw
      exact Bool.noConfusion hsw
    · exact Bool.eq_false_iff.mpr hany
  have hsup : isSupportedProperty p (transformValue v) = true := by
    rw [htv]
    unfold isSupportedProperty
    simp only [hlook]
    rw [if_pos hvne, if_neg (by simp [huv])]
  rw [transformDeclaration]
  rw [if_neg (by simp [h1]), if_neg (by simp [htw2]), if_neg (by simp [hcm]),
    if_neg (by simp [hcc]), if_neg hvis, if_neg hva, if_neg hanim,
    if_neg (by simp [hsup]), htv]

/-! ## C7: idempotence fails in general but holds on simple style rules -/

/-- C7 counterexample: the transformer is not idempotent.  A keyframes
at-rule is re-emitted with a newline added on each side of its body, so a
second pass over the output of a first pass produces a different string. -/
theorem transform_not_idempotent :
    transformNativeScriptCSS apFail serNil
        (transformNativeScriptCSS apFail serNil "@keyframes k\x7ba\x7d") ≠
      transformNativeScriptCSS apFail serNil "@keyframes k\x7ba\x7d" := by
  decide

/-- C7 amended: on a single style rule already in the emission format, with
a selector free of whitespace, at-signs, braces, ampersands, colons and
semicolons, a non-custom supported property accepting every value, and a
value that the value rewrite leaves unchanged and that triggers none of the
drop rules, the transformer is the identity; consequently it is idempotent
there. -/
theorem idempotent_on_simple_rule
    (ap : String → Except Unit (List (String × JSVal)))
    (ser : String → JSVal → String) (sel p v : String)
    (hs1 : sel.data ≠ [])
    (hs2 : sel.data.all (fun c => !isWSChar c && c ≠ '@' && c ≠ '\x7b' && c ≠ '\x7d' &&
        c ≠ '&' && c ≠ ':' && c ≠ ';') = true)
    (hp0 : p.data ≠ [])
    (hp1 : p.data.all (fun c => !isWSChar c && c ≠ ':' && c ≠ ';' && c ≠ '\x7b' &&
        c ≠ '\x7d') = true)
    (hv0 : v.data ≠ [])
    (hv1 : v.data.all (fun c => c ≠ ';' && c ≠ '\x7b' && c ≠ '\x7d') = true)
    (hvh : v.data.head?.all (fun c => !isWSChar c) = true)
    (hvl : v.data.getLast?.all (fun c => !isWSChar c) = true)
    (hsw : startsWithS "--" p = false)
    (htw2 : twReversePatterns.any (fun pat => containsSubS p pat) = false)
    (hcm : containsSubS v "color-mix" = false)
    (hcc : containsSubS v "currentColor" = false)
    (hvis : ¬(p = "visibility" ∧ v = "hidden"))
    (hva : ¬(p = "vertical-align" ∧ v = "middle"))
    (hanim : ¬(p = "animation"))
    (hlook : lookupProp p = some SupportRule.always)
    (huv : unsupportedValues.any (fun u => endsWithS u v) = false)
    (htv : transformValue v = v) :
    transformNativeScriptCSS ap ser (sel ++ " \x7b\n  " ++ p ++ ": " ++ v ++ ";\n\x7d") =
      sel ++ " \x7b\n  " ++ p ++ ": " ++ v ++ ";\n\x7d" ∧
    transformNativeScriptCSS ap ser (transformNativeScriptCSS ap ser
        (sel ++ " \x7b\n  " ++ p ++ ": " ++ v ++ ";\n\x7d")) =
      transformNativeScriptCSS ap ser
        (sel ++ " \x7b\n  " ++ p ++ ": " ++ v ++ ";\n\x7d") := by
  have hselc : ∀ c ∈ sel.data, isWSChar c = false ∧ ¬(c = '@') ∧ ¬(c = '\x7b') ∧
      ¬(c = '\x7d') ∧ ¬(c = '&') ∧ ¬(c = ':') ∧ ¬(c = ';') := by
    intro c hc
    have := List.all_eq_true.mp hs2 c hc
    simp at this
    tauto
  have hpc : ∀ c ∈ p.data, isWSChar c = false ∧ ¬(c = ':') ∧ ¬(c = ';') ∧
      ¬(c = '\x7b') ∧ ¬(c = '\x7d') := by
    intro c hc
    have := List.all_eq_true.mp hp1 c hc
    simp at this
    tauto
  have hvc : ∀ c ∈ v.data, ¬(c = ';') ∧ ¬(c = '\x7b') ∧ ¬(c = '\x7d') := by
    intro c hc
    have := List.all_eq_true.mp hv1 c hc
    simp at this
    tauto
  have hvh' : ∀ c, v.data.head? = some c → isWSChar c = false := by
    intro c hc
    rw [hc] at hvh
    simpa using hvh
  have hvl' : ∀ c, v.data.getLast? = some c → isWSChar c = false := by
    intro c hc
    rw [hc] at hvl
    simpa using hvl
  have main : transformNativeScriptCSS ap ser
      (sel ++ " \x7b\n  " ++ p ++ ": " ++ v ++ ";\n\x7d") =
      sel ++ " \x7b\n  " ++ p ++ ": " ++ v ++ ";\n\x7d" := by
    have hdata : (sel ++ " \x7b\n  " ++ p ++ ": " ++ v ++ ";\n\x7d").data =
        (sel.data ++ [' ']) ++ '\x7b' ::
          (('\n' :: ' ' :: ' ' :: (p.data ++ ':' :: ' ' :: (v.data ++ [';', '\n']))) ++
            ['\x7d']) := by
      simp only [data_append, List.append_assoc, List.cons_append, List.nil_append,
        List.singleton_append]
    have hS : (sel ++ " \x7b\n  " ++ p ++ ": " ++ v ++ ";\n\x7d" : String) =
        ⟨(sel.data ++ [' ']) ++ '\x7b' ::
          (('\n' :: ' ' :: ' ' :: (p.data ++ ':' :: ' ' :: (v.data ++ [';', '\n']))) ++
            ['\x7d'])⟩ := by
      rw [← hdata]
    have hne : sel.data ++ [' '] ≠ [] := by simp
    have hat : (sel.data ++ [' ']).head? ≠ some '@' := by
      cases hsd : sel.data with
      | nil => exact absurd hsd hs1
      | cons s0 ss =>
        intro heq
        have : s0 = '@' := by simpa using heq
        exact (hselc s0 (by rw [hsd]; exact List.mem_cons_self _ _)).2.1 this
    have hbrace : (sel.data ++ [' ']).all (fun x => x ≠ '\x7b') = true := by
      rw [List.all_append, Bool.and_eq_true]
      exact ⟨List.all_eq_true.mpr (fun c hc => by simp [(hselc c hc).2.2.1]), by decide⟩
    have hallp : p.data.all (fun c => c ≠ '\x7b' && c ≠ '\x7d') = true :=
      List.all_eq_true.mpr
        (fun c hc => by simp [(hpc c hc).2.2.2.1, (hpc c hc).2.2.2.2])
    have hallv : v.data.all (fun c => c ≠ '\x7b' && c ≠ '\x7d') = true :=
      List.all_eq_true.mpr (fun c hc => by simp [(hvc c hc).2.1, (hvc c hc).2.2])
    have hbal : balFrom 0
        ('\n' :: ' ' :: ' ' :: (p.data ++ ':' :: ' ' :: (v.data ++ [';', '\n']))) =
        true := by
      apply balFrom_no_brace
      rw [List.all_cons, List.all_cons, List.all_cons, List.all_append, List.all_cons,
        List.all_cons, List.all_append]
      simp only [hallp, hallv]
      decide
    have htsel : trimS ⟨sel.data ++ [' ']⟩ = sel := by
      show (⟨trimL (sel.data ++ [' '])⟩ : String) = sel
      have := trimL_sandwich [] sel.data [' '] (by decide) (by decide)
        (fun c hc => by
          cases hsd : sel.data with
          | nil => rw [hsd] at hc; exact absurd hc (by simp)
          | cons s0 ss =>
            rw [hsd] at hc
            have hcp : s0 = c := by simpa using hc
            subst hcp
            exact (hselc s0 (by rw [hsd]; exact List.mem_cons_self _ _)).1)
        (fun c hc => (hselc c (List.mem_of_getLast?_eq_some hc)).1)
      rw [List.nil_append] at this
      rw [this]
    have hinshape : '\n' :: ' ' :: ' ' :: (p.data ++ ':' :: ' ' :: (v.data ++ [';', '\n'])) =
        ['\n', ' ', ' '] ++ (p.data ++ ':' :: ' ' :: (v.data ++ [';'])) ++ ['\n'] := by
      simp [List.append_assoc]
    have hLh : ∀ c, (p.data ++ ':' :: ' ' :: (v.data ++ [';'])).head? = some c →
        isWSChar c = false := by
      intro c hc
      cases hpd : p.data with
      | nil => exact absurd hpd hp0
      | cons p0 ps =>
        rw [hpd, List.cons_append] at hc
        have hcp : p0 = c := by simpa using hc
        subst hcp
        exact (hpc p0 (by rw [hpd]; exact List.mem_cons_self _ _)).1
    have hLl : ∀ c, (p.data ++ ':' :: ' ' :: (v.data ++ [';'])).getLast? = some c →
        isWSChar c = false := by
      intro c hc
      have hshape : p.data ++ ':' :: ' ' :: (v.data ++ [';']) =
          (p.data ++ ':' :: ' ' :: v.data) ++ [';'] := by
        simp [List.append_assoc]
      rw [hshape, List.getLast?_concat] at hc
      have : c = ';' := by simpa using hc.symm
      subst this
      decide
    have htinner : trimS ⟨'\n' :: ' ' :: ' ' ::
        (p.data ++ ':' :: ' ' :: (v.data ++ [';', '\n']))⟩ =
        ⟨p.data ++ ':' :: ' ' :: (v.data ++ [';'])⟩ := by
      show (⟨trimL _⟩ : String) = _
      rw [hinshape, trimL_sandwich ['\n', ' ', ' '] _ ['\n'] (by decide) (by decide) hLh hLl]
    have hsel : trimS ⟨sel.data ++ [' ']⟩ ≠ "" := by
      rw [htsel]
      exact fun h => hs1 (congrArg String.data h)
    have hbody : trimS ⟨'\n' :: ' ' :: ' ' ::
        (p.data ++ ':' :: ' ' :: (v.data ++ [';', '\n']))⟩ ≠ "" := by
      rw [htinner]
      exact mk_ne_empty _ (by simp)
    have hstep := parseStep1_rule_shape (sel.data ++ [' '])
      ('\n' :: ' ' :: ' ' :: (p.data ++ ':' :: ' ' :: (v.data ++ [';', '\n'])))
      hne hat hbrace hbal hsel hbody
    have hdwcs : ((sel.data ++ [' ']) ++ '\x7b' ::
        (('\n' :: ' ' :: ' ' :: (p.data ++ ':' :: ' ' :: (v.data ++ [';', '\n']))) ++
          ['\x7d'])).dropWhile isWSChar =
        (sel.data ++ [' ']) ++ '\x7b' ::
        (('\n' :: ' ' :: ' ' :: (p.data ++ ':' :: ' ' :: (v.data ++ [';', '\n']))) ++
          ['\x7d']) := by
      cases hsd : sel.data with
      | nil => exact absurd hsd hs1
      | cons s0 ss =>
        have hs0 : isWSChar s0 = false :=
          (hselc s0 (by rw [hsd]; exact List.mem_cons_self _ _)).1
        show (s0 :: ((ss ++ [' ']) ++ '\x7b' ::
          (('\n' :: ' ' :: ' ' :: (p.data ++ ':' :: ' ' :: (v.data ++ [';', '\n']))) ++
            ['\x7d']))).dropWhile isWSChar = _
        rw [List.dropWhile_cons_of_neg (by simp [hs0])]
        rfl
    have hcsne : (sel.data ++ [' ']) ++ '\x7b' ::
        (('\n' :: ' ' :: ' ' :: (p.data ++ ':' :: ' ' :: (v.data ++ [';', '\n']))) ++
          ['\x7d']) ≠ [] := by simp
    have hparse0 := parseCSS_of_step _ _ hdwcs hcsne hstep
    rw [htsel, htinner] at hparse0
    have hparse : parseCSS (sel ++ " \x7b\n  " ++ p ++ ": " ++ v ++ ";\n\x7d") =
        [CSSNode.rule sel ⟨p.data ++ ':' :: ' ' :: (v.data ++ [';'])⟩] := by
      rw [hS]
      exact hparse0
    rw [transform_of_parse ap ser _ _ hparse]
    have hnocolon : ':' ∉ sel.data := fun hm => (hselc ':' hm).2.2.2.2.2.1 rfl
    have hamp : containsSubS sel "&" = false :=
      containsSubL_false_of_not_mem _ _ '&' (by decide)
        (fun hm => (hselc '&' hm).2.2.2.2.1 rfl)
    have hf1 : containsSubS sel ":focus-within" = false :=
      containsSubL_false_of_not_mem _ _ ':' (by decide) hnocolon
    have hf2 : containsSubS sel ":hover" = false :=
      containsSubL_false_of_not_mem _ _ ':' (by decide) hnocolon
    have hsupsel : isSupportedSelector sel = true := by
      unfold isSupportedSelector
      rw [show unsupportedPseudoSelectors = [":focus-within", ":hover"] from rfl]
      simp [hf1, hf2]
    have hts : transformSelector sel = sel :=
      transformSelector_id_of_no_colon sel
        (List.all_eq_true.mpr (fun c hc => by simp [(hselc c hc).2.2.2.2.2.1]))
        (fun c hc => by
          cases hsd : sel.data with
          | nil => rw [hsd] at hc; exact absurd hc (by simp)
          | cons s0 ss =>
            rw [hsd] at hc
            have hcp : s0 = c := by simpa using hc
            subst hcp
            exact (hselc s0 (by rw [hsd]; exact List.mem_cons_self _ _)).1)
        (fun c hc => (hselc c (List.mem_of_getLast?_eq_some hc)).1)
    have hplc : containsSubS sel "::placeholder" = false :=
      containsSubL_false_of_not_mem _ _ ':' (by decide) hnocolon
    have hpd := parseDeclarations_single p v hp0
      (fun c hc => (hpc c hc).1) (fun c hc => (hpc c hc).2.1)
      (fun c hc => (hpc c hc).2.2.1) hv0 (fun c hc => (hvc c hc).1) hvh' hvl'
    have hkeep := transformDeclaration_keep ap ser p v hsw htw2 hcm hcc hvis hva
      hanim hlook (fun h => hv0 (congrArg String.data h)) huv htv
    have hpexp : ¬(p = "__expanded__") := by
      intro h
      rw [h, show lookupProp "__expanded__" = none from by decide] at hlook
      exact Option.noConfusion hlook
    simp only [goNodes, if_neg (show ¬(containsSubS sel "&" = true) by simp [hamp]),
      if_neg (show ¬((!isSupportedSelector sel) = true) by simp [hsupsel]),
      if_neg (show ¬(transformSelector sel = "") from by
        rw [hts]; exact fun h => hs1 (congrArg String.data h)),
      hpd, List.filterMap_cons, List.filterMap_nil,
      if_neg (show ¬(containsSubS sel "::placeholder" = true ∧
        (p, v).1 = "color") from fun hx => by
          have := hx.1
          rw [hplc] at this
          exact Bool.noConfusion this),
      hkeep, if_neg hpexp]
    rw [hts]
    show sel ++ " \x7b\n  " ++ joinSep ";\n  " [p ++ ": " ++ v] ++ ";\n\x7d" =
      sel ++ " \x7b\n  " ++ p ++ ": " ++ v ++ ";\n\x7d"
    show sel ++ " \x7b\n  " ++ (p ++ ": " ++ v) ++ ";\n\x7d" =
      sel ++ " \x7b\n  " ++ p ++ ": " ++ v ++ ";\n\x7d"
    simp [String.append_assoc]
  refine ⟨main, ?_⟩
  rw [main]
  exact main

/-- Witness for C7 at concrete inputs: a simple color rule in emission
format is a fixed point of the transformer, hence idempotent there. -/
theorem idempotent_on_simple_rule_witness :
    transformNativeScriptCSS apFail serNil
        (".a" ++ " \x7b\n  " ++ "color" ++ ": " ++ "red" ++ ";\n\x7d") =
      ".a" ++ " \x7b\n  " ++ "color" ++ ": " ++ "red" ++ ";\n\x7d" ∧
    transformNativeScriptCSS apFail serNil (transformNativeScriptCSS apFail serNil
        (".a" ++ " \x7b\n  " ++ "color" ++ ": " ++ "red" ++ ";\n\x7d")) =
      transformNativeScriptCSS apFail serNil
        (".a" ++ " \x7b\n  " ++ "color" ++ ": " ++ "red" ++ ";\n\x7d") :=
  idempotent_on_simple_rule apFail serNil ".a" "color" "red" (by decide) (by decide)
    (by decide) (by decide) (by decide) (by decide) (by decide) (by decide) (by decide)
    (by decide) (by decide) (by decide) (by decide) (by decide) (by decide) (by decide)
    (by decide) (by decide)

/-! ## C4: layer at-rules are flattened in place -/

/-- C4: for every layer at-rule with a block body whose params are free of
open braces and semicolons and whose body is brace-balanced, the
transformer replaces the whole at-rule by the transformed content of its
body, spliced in place with no layer wrapper construct remaining; a
concrete doubly-nested example shows the splice lifting rules from two
nesting depths to the top level, in order. -/
theorem layer_flattening :
    (∀ (ap : String → Except Unit (List (String × JSVal)))
        (ser : String → JSVal → String) (params inner : String),
        params.data.all (fun x => x ≠ '\x7b' && x ≠ ';') = true →
        balFrom 0 inner.data = true →
        transformNativeScriptCSS ap ser ("@layer " ++ params ++ "\x7b" ++ inner ++ "\x7d") =
          transformNativeScriptCSS ap ser inner) ∧
    transformNativeScriptCSS apFail serNil
        "@layer a\x7b.x\x7bcolor: blue\x7d@layer b\x7b.y\x7bcolor: red\x7d\x7d\x7d" =
      ".x \x7b\n  color: blue;\n\x7d\n\n.y \x7b\n  color: red;\n\x7d" := by
  constructor
  · intro ap ser params inner hp hbal
    rw [show ("@layer " : String) = "@" ++ "layer" ++ " " from rfl]
    have hparse := parseCSS_at_block "layer" params inner (by decide) (by decide) hp hbal
    rw [transform_of_parse ap ser _ _ hparse]
    have hlen : inner.data.length <
        ("@" ++ "layer" ++ " " ++ params ++ "\x7b" ++ inner ++ "\x7d").data.length := by
      simp only [data_append, List.length_append, List.length_cons, List.length_nil]
      omega
    simp only [goNodes, if_pos rfl]
    by_cases hi : inner = ""
    · subst hi
      rw [if_neg (show ¬(("" : String) ≠ "") from fun h => h rfl)]
      rfl
    · rw [if_pos hi]
      rw [transformGo_eq_main ap ser _ inner hlen]
      rfl
  · decide

/-- Witness for C4 at concrete inputs: a single layer block around one
style rule transforms exactly as the bare rule does. -/
theorem layer_flattening_witness :
    transformNativeScriptCSS apFail serNil
        ("@layer " ++ "base" ++ "\x7b" ++ ".x\x7bcolor: red\x7d" ++ "\x7d") =
      transformNativeScriptCSS apFail serNil ".x\x7bcolor: red\x7d" :=
  layer_flattening.1 apFail serNil "base" ".x\x7bcolor: red\x7d" (by decide) (by decide)

/-! ## C5: at-rule policy (drop all but keyframes, reproduce keyframes) -/

/-- C5: a block at-rule with any name other than layer and keyframes (in
particular media, supports, property, and any unrecognized word) vanishes
from the output entirely, as does any blockless non-keyframes at-rule; a
keyframes block at-rule is reproduced with its body byte-for-byte unchanged
and its params merely whitespace-trimmed, wrapped in the fixed emission
template. -/
theorem at_rule_policy :
    (∀ (ap : String → Except Unit (List (String × JSVal)))
        (ser : String → JSVal → String) (name params inner : String),
        name.data ≠ [] → name.data.all isWordChar = true →
        name ≠ "layer" → name ≠ "keyframes" →
        params.data.all (fun x => x ≠ '\x7b' && x ≠ ';') = true →
        balFrom 0 inner.data = true →
        transformNativeScriptCSS ap ser
          ("@" ++ name ++ " " ++ params ++ "\x7b" ++ inner ++ "\x7d") = "") ∧
    (∀ (ap : String → Except Unit (List (String × JSVal)))
        (ser : String → JSVal → String) (name params : String),
        name.data ≠ [] → name.data.all isWordChar = true →
        name ≠ "keyframes" →
        params.data.all (fun x => x ≠ '\x7b' && x ≠ ';') = true →
        transformNativeScriptCSS ap ser ("@" ++ name ++ " " ++ params ++ ";") = "") ∧
    (∀ (ap : String → Except Unit (List (String × JSVal)))
        (ser : String → JSVal → String) (params inner : String),
        params.data.all (fun x => x ≠ '\x7b' && x ≠ ';') = true →
        balFrom 0 inner.data = true →
        transformNativeScriptCSS ap ser
          ("@keyframes " ++ params ++ "\x7b" ++ inner ++ "\x7d") =
          "@keyframes " ++ trimS params ++ " \x7b\n" ++ inner ++ "\n\x7d") := by
  refine ⟨?_, ?_, ?_⟩
  · intro ap ser name params inner hn1 hn2 hla hkf hp hbal
    have hparse := parseCSS_at_block name params inner hn1 hn2 hp hbal
    rw [transform_of_parse ap ser _ _ hparse]
    simp only [goNodes, if_neg hla, if_neg hkf]
    rfl
  · intro ap ser name params hn1 hn2 hkf hp
    have hparse := parseCSS_at_semi name params hn1 hn2 hp
    rw [transform_of_parse ap ser _ _ hparse]
    by_cases hla : name = "layer"
    · simp only [goNodes, if_pos hla]
      rfl
    · simp only [goNodes, if_neg hla, if_neg hkf]
      rfl
  · intro ap ser params inner hp hbal
    rw [show ("@keyframes " : String) = "@" ++ "keyframes" ++ " " from rfl]
    have hparse := parseCSS_at_block "keyframes" params inner (by decide) (by decide) hp hbal
    rw [transform_of_parse ap ser _ _ hparse]
    simp only [goNodes, if_neg (show ¬(("keyframes" : String) = "layer") by decide),
      if_pos rfl]
    rfl

/-- Witness for C5 at concrete inputs: a media block and a blockless
supports at-rule are erased; a keyframes block is reproduced verbatim in
the emission template. -/
theorem at_rule_policy_witness :
    transformNativeScriptCSS apFail serNil
        ("@" ++ "media" ++ " " ++ "screen" ++ "\x7b" ++ ".x\x7bcolor:red\x7d" ++ "\x7d")
      = "" ∧
    transformNativeScriptCSS apFail serNil
        ("@" ++ "supports" ++ " " ++ "(display: flex)" ++ ";") = "" ∧
    transformNativeScriptCSS apFail serNil
        ("@keyframes " ++ "spin" ++ "\x7b" ++ "from\x7bopacity:0\x7d" ++ "\x7d") =
      "@keyframes " ++ trimS "spin" ++ " \x7b\n" ++ "from\x7bopacity:0\x7d" ++ "\n\x7d" :=
  ⟨at_rule_policy.1 apFail serNil "media" "screen" ".x\x7bcolor:red\x7d"
      (by decide) (by decide) (by decide) (by decide) (by decide) (by decide),
   at_rule_policy.2.1 apFail serNil "supports" "(display: flex)"
      (by decide) (by decide) (by decide) (by decide),
   at_rule_policy.2.2 apFail serNil "spin" "from\x7bopacity:0\x7d" (by decide) (by decide)⟩

/-! ## C8: totality on arbitrary, including malformed, input -/

/-- C8: the transformer is total: on every input string the fueled model
completes within fuel one more than the input length and
transformNativeScriptCSS returns that string, so no input raises or loops;
on two concretely malformed inputs the result is the documented best-effort
one: an unterminated style rule is emitted from its partial body with the
final character lost to the exclusive slice bound, and an unterminated
at-rule block produces empty output. -/
theorem transform_total_on_malformed :
    (∀ (ap : String → Except Unit (List (String × JSVal)))
        (ser : String → JSVal → String) (css : String),
        transformGo ap ser (css.data.length + 1) css =
          some (transformNativeScriptCSS ap ser css)) ∧
    transformNativeScriptCSS apFail serNil ".a\x7bcolor:red" =
      ".a \x7b\n  color: re;\n\x7d" ∧
    transformNativeScriptCSS apFail serNil "@media x \x7b" = "" := by
  refine ⟨?_, by decide, by decide⟩
  intro ap ser css
  exact transformGo_eq_main ap ser _ css (Nat.lt_succ_self _)

/-! ## C9: termination of the scanner, the parser loop and the recursion -/

/-- C9: the transformer terminates on every input: the parser loop
completes within fuel one more than the input length (every iteration
consumes at least one character), every block body handed to the layer
recursion is strictly shorter than its source text (bounding the recursion
depth by the input length, hence by its nesting depth), and the whole
fueled transformer completes within fuel one more than the input length. -/
theorem transformer_terminates :
    (∀ css : String, (parseCSSGo (css.data.length + 1) css.data).isSome = true) ∧
    (∀ css : String, ∀ node ∈ parseCSS css, ∀ nm p b,
        node = CSSNode.atRule nm p (some b) → b.data.length < css.data.length) ∧
    (∀ (ap : String → Except Unit (List (String × JSVal)))
        (ser : String → JSVal → String) (css : String),
        (transformGo ap ser (css.data.length + 1) css).isSome = true) := by
  refine ⟨?_, ?_, ?_⟩
  · intro css
    exact parseCSSGo_isSome css.data.length css.data (Nat.le_refl _) _ (Nat.lt_succ_self _)
  · intro css
    exact parseCSS_body_lt css
  · intro ap ser css
    exact transformGo_isSome ap ser css.data.length css (Nat.le_refl _) _ (Nat.lt_succ_self _)

/-- Witness for C9 at a concrete input: a media block parses to an at-rule
node whose body is strictly shorter than the input, and the parser loop and
transformer complete on it. -/
theorem transformer_terminates_witness :
    (parseCSSGo ((("@media x\x7bbody\x7d" : String)).data.length + 1)
      ("@media x\x7bbody\x7d" : String).data).isSome = true ∧
    ("body" : String).data.length < ("@media x\x7bbody\x7d" : String).data.length ∧
    (transformGo apFail serNil ((("@media x\x7bbody\x7d" : String)).data.length + 1)
      "@media x\x7bbody\x7d").isSome = true :=
  ⟨transformer_terminates.1 "@media x\x7bbody\x7d",
   transformer_terminates.2.1 "@media x\x7bbody\x7d"
     (CSSNode.atRule "media" "x" (some "body")) (by decide) "media" "x" "body" rfl,
   transformer_terminates.2.2 apFail serNil "@media x\x7bbody\x7d"⟩

end NSCss
